import Mathlib

/-!
# GpuTuple (Src/Base/AMReX_Tuple.H)

A shallow embedding of `amrex::GpuTuple` and of its algebra.

Conventions of the embedding.

* A template type parameter list `Ts...` is erased: a slot holds a value of one
  Lean type `T`, and a heterogeneous tuple is obtained by taking a sum type for
  `T`.  What the C++ compiler derives from the erased types (the implicit
  conversion applied when slot `I` is initialised or assigned, the number
  `sizeof...(Ts)`) is passed explicitly.
* The compile-time index `I` of `gpu_tuple_element<I,T>` and of
  `gpu_tuple_impl<I,Ts...>` is kept in the Lean type.
* A function pack expansion `pattern(Is)...` is `expand`.
* A call that the C++ compiler rejects is `none`.
* `std::size_t` arithmetic is arithmetic modulo `2 ^ 64`.
-/

namespace amrex

/-- The number of values of `std::size_t`. -/
def size_t_range : Nat := 2 ^ 64

/-- Addition of two `std::size_t` values. -/
def size_t_add (a b : Nat) : Nat := (a + b) % size_t_range

/-- Subtraction of two `std::size_t` values. -/
def size_t_sub (a b : Nat) : Nat := (a + size_t_range - b % size_t_range) % size_t_range

/-- The pack expansion `pattern(Is)...` over the indices `Is`: the patterns are
evaluated in order, and the expansion is rejected when one of them is. -/
def expand {α β : Type} (pattern : α → Option β) : List α → Option (List β)
  | [] => some []
  | i :: is =>
    match pattern i, expand pattern is with
    | some x, some xs => some (x :: xs)
    | _, _ => none

/-- `std::make_index_sequence<N>`: the indices `0, 1, ..., N-1`. -/
def make_index_sequence (N : Nat) : List Nat := List.range N

namespace detail

/-- `gpu_tuple_element<I,T>`: the holder of the value of slot `I`. -/
structure gpu_tuple_element (I : Nat) (T : Type) where
  m_value : T

/-- `gpu_tuple_impl<I,Ts...>`.  The specialisation for one type `Head` has the
base `gpu_tuple_element<I,Head>`; the specialisation for `Head, Tail...` has the
bases `gpu_tuple_impl<I+1,Tail...>` and `gpu_tuple_element<I,Head>`.  The primary
template, which an empty list of types would select, is declared and never
defined, so there is no value for it. -/
inductive gpu_tuple_impl (T : Type) : Nat → Type where
  | single {I : Nat} (elem : gpu_tuple_element I T) : gpu_tuple_impl T I
  | cons {I : Nat} (base : gpu_tuple_impl T (I + 1)) (elem : gpu_tuple_element I T) :
      gpu_tuple_impl T I

/-- The constructors `gpu_tuple_impl(Head const& a_head, Tail const&... a_tail)`
and `gpu_tuple_impl(UH&& a_head, UT&&... a_tail)`: the base
`gpu_tuple_impl<I+1,Tail...>` is initialised from `a_tail...` and the base
`gpu_tuple_element<I,Head>` from `a_head`.  `conv I` is the conversion of the
argument to the type of slot `I` (the identity for the first constructor). -/
def gpu_tuple_impl.ctor {A T : Type} (conv : Nat → A → T) :
    (I : Nat) → A → List A → gpu_tuple_impl T I
  | I, a_head, [] => gpu_tuple_impl.single ⟨conv I a_head⟩
  | I, a_head, a :: a_tail =>
    gpu_tuple_impl.cons (gpu_tuple_impl.ctor conv (I + 1) a a_tail) ⟨conv I a_head⟩

/-- The number of `gpu_tuple_element` bases, which is `sizeof...(Ts)`. -/
def gpu_tuple_impl.size {T : Type} : {I : Nat} → gpu_tuple_impl T I → Nat
  | _, gpu_tuple_impl.single _ => 1
  | _, gpu_tuple_impl.cons base _ => base.size + 1

/-- The derived-to-base conversion to `gpu_tuple_element<J,_>` that binds the
parameter `te` of `get_impl<J,Ts...>`; there is none when no base has index `J`. -/
def gpu_tuple_impl.to_base {T : Type} (J : Nat) :
    {I : Nat} → gpu_tuple_impl T I → Option (gpu_tuple_element J T)
  | I, gpu_tuple_impl.single elem => if I = J then some ⟨elem.m_value⟩ else none
  | I, gpu_tuple_impl.cons base elem =>
    if I = J then some ⟨elem.m_value⟩ else base.to_base J

/-- The body of `get_impl`: `return te.m_value;`. -/
def get_impl {I : Nat} {T : Type} (te : gpu_tuple_element I T) : T := te.m_value

/-- The statement `get_impl<J,Ts...>(tup) = v` through the mutable overload: the
`m_value` of the base `gpu_tuple_element<J,_>` becomes `v`. -/
def gpu_tuple_impl.assign_base {T : Type} (J : Nat) (v : T) :
    {I : Nat} → gpu_tuple_impl T I → Option (gpu_tuple_impl T I)
  | I, gpu_tuple_impl.single _ =>
    if I = J then some (gpu_tuple_impl.single ⟨v⟩) else none
  | I, gpu_tuple_impl.cons base elem =>
    if I = J then some (gpu_tuple_impl.cons base ⟨v⟩)
    else (base.assign_base J v).map (fun base' => gpu_tuple_impl.cons base' elem)

end detail

/-- `GpuTuple<Ts...>`, which derives from `detail::gpu_tuple_impl<0,Ts...>`. -/
abbrev GpuTuple (T : Type) : Type := detail.gpu_tuple_impl T 0

/-- `GpuTupleSize<GpuTuple<Ts...>>::value`, which is `sizeof...(Ts)`. -/
def GpuTupleSize {T : Type} (tup : GpuTuple T) : Nat := detail.gpu_tuple_impl.size tup

/-- The constructors `GpuTuple(Ts const&... args)` and `GpuTuple(Us&&... args)` of
a tuple type with `sizeof_Ts` element types.  The second one takes part only
when `sizeof...(Us) == sizeof...(Ts)`, and the first one has one parameter per
element type.  With no element type the base is the undefined primary template. -/
def GpuTuple.ctor {A T : Type} (conv : Nat → A → T) (sizeof_Ts : Nat) :
    List A → Option (GpuTuple T)
  | [] => none
  | a_head :: a_tail =>
    if (a_head :: a_tail).length = sizeof_Ts then
      some (detail.gpu_tuple_impl.ctor conv 0 a_head a_tail)
    else none

/-- The copy of an argument into a slot of its own type. -/
def copy_conv {T : Type} : Nat → T → T := fun _ v => v

/-- `get<I>(tup)`: `return detail::get_impl<I,Ts...>(tup);`. -/
def get {T : Type} (I : Nat) (tup : GpuTuple T) : Option T :=
  (detail.gpu_tuple_impl.to_base I tup).map detail.get_impl

/-! ## Converting assignment -/

namespace detail

/-- The two overloads of `tuple_copy<I,N>(a, b)`, unfolded at most `fuel` times.
`assign I` is the statement `amrex::get<I>(a) = amrex::get<I>(b)` on the state
that holds `a`.  The overload for `I < N-1` runs it and then calls
`tuple_copy<I+1,N>`; the overload for `I == N-1` runs it; no overload takes part
otherwise.  `N-1` is computed in `std::size_t`. -/
def tuple_copy_steps {S : Type} (assign : Nat → S → Option S) :
    Nat → Nat → Nat → S → Option S
  | 0, _, _, _ => none
  | fuel + 1, I, N, a =>
    if I < size_t_sub N 1 then
      (assign I a).bind (fun a' => tuple_copy_steps assign fuel (I + 1) N a')
    else if I = size_t_sub N 1 then assign I a
    else none

/-- `tuple_copy<I,N>(a, b)`: the instantiations `I, I+1, ..., N-1` are all the
ones that a call unfolds. -/
def tuple_copy {S : Type} (assign : Nat → S → Option S) (I N : Nat) (a : S) : Option S :=
  tuple_copy_steps assign (size_t_sub N 1 + 1 - I) I N a

end detail

/-- The statement `amrex::get<I>(a) = amrex::get<I>(b)` for two tuples of object
(non-reference) element types: slot `I` of `b` is read, converted by `conv I` to
the type of slot `I` of `a`, and stored in slot `I` of `a`. -/
def assign_get {U V : Type} (conv : Nat → U → V) (b : GpuTuple U) (I : Nat)
    (a : GpuTuple V) : Option (GpuTuple V) :=
  (get I b).bind (fun v => detail.gpu_tuple_impl.assign_base I (conv I v) a)

/-- `GpuTuple<Ts...>::operator= (GpuTuple<Us...> const& rhs)` for object element
types; it takes part in overload resolution when
`sizeof...(Us) == sizeof...(Ts)`.  The value is `*this` after the assignment. -/
def GpuTuple.operator_assign {U V : Type} (conv : Nat → U → V) (this : GpuTuple V)
    (rhs : GpuTuple U) : Option (GpuTuple V) :=
  if GpuTupleSize rhs = GpuTupleSize this then
    detail.tuple_copy (assign_get conv rhs) 0 (GpuTupleSize this) this
  else none

/-- `GpuTuple<Ts...>::operator= (GpuTuple<Us...> && rhs)` for object element
types: as the copy variant, with `std::move(rhs)` handed to `tuple_copy`, so that
each slot is read through the `&&` overload of `get`. -/
def GpuTuple.operator_assign_move {U V : Type} (conv : Nat → U → V) (this : GpuTuple V)
    (rhs : GpuTuple U) : Option (GpuTuple V) :=
  if GpuTupleSize rhs = GpuTupleSize this then
    detail.tuple_copy (assign_get conv rhs) 0 (GpuTupleSize this) this
  else none

/-! ## Storage and tuples of references -/

/-- The caller's storage: the value held at each storage location. -/
abbrev Memory (V : Type) : Type := Nat → V

/-- The assignment `x = v` to the object at location `loc`. -/
def Memory.write {V : Type} (m : Memory V) (loc : Nat) (v : V) : Memory V :=
  fun l => if l = loc then v else m l

/-- `Tie(args...)`: `return GpuTuple<Args&...>(args...);`.  A slot of type
`Args&` holds the location its reference is bound to. -/
def Tie (args : List Nat) : Option (GpuTuple Nat) :=
  GpuTuple.ctor copy_conv args.length args

/-- The statement `amrex::get<I>(a) = amrex::get<I>(b)` when the element types of
`a` are references and those of `b` are object types: `get<I>(a)` is the object
slot `I` of `a` refers to, and that object is assigned the converted slot `I` of
`b`. -/
def assign_get_ref {U V : Type} (conv : Nat → U → V) (a : GpuTuple Nat) (b : GpuTuple U)
    (I : Nat) (m : Memory V) : Option (Memory V) :=
  match get I a, get I b with
  | some loc, some v => some (m.write loc (conv I v))
  | _, _ => none

/-- `GpuTuple<Ts&...>::operator= (GpuTuple<Us...> && rhs)`, the assignment through
a tuple of references.  The value is the storage after the assignment; the tuple
of references itself is not modified. -/
def GpuTuple.operator_assign_ref {U V : Type} (conv : Nat → U → V) (this : GpuTuple Nat)
    (rhs : GpuTuple U) (m : Memory V) : Option (Memory V) :=
  if GpuTupleSize rhs = GpuTupleSize this then
    detail.tuple_copy (assign_get_ref conv this rhs) 0 (GpuTupleSize this) m
  else none

/-! ## makeTuple -/

/-- `makeTuple(args...)`:
`return GpuTuple<detail::tuple_decay_t<Ts>...>(std::forward<Ts>(args)...);`.
`tuple_decay` initialises a slot of type `tuple_decay_t<T>` from an argument of
type `T`; for an argument that is not a `std::reference_wrapper` it copies the
argument's value. -/
def makeTuple {A T : Type} (tuple_decay : A → T) (args : List A) : Option (GpuTuple T) :=
  GpuTuple.ctor (fun _ => tuple_decay) args.length args

/-! ## TupleCat -/

namespace detail

/-- `tuple_cat_result<TPs...>::type` on lists of element types: undefined for no
tuple, the tuple itself for one, and for `GpuTuple<T1s...>, GpuTuple<T2s...>,
TPs...` the result for `GpuTuple<T1s..., T2s...>, TPs...`. -/
def tuple_cat_result_from {τ : Type} : List τ → List (List τ) → List τ
  | T1s, [] => T1s
  | T1s, T2s :: TPs => tuple_cat_result_from (T1s ++ T2s) TPs

/-- `tuple_cat_result<TPs...>::type`; the primary template has no member `type`. -/
def tuple_cat_result {τ : Type} : List (List τ) → Option (List τ)
  | [] => none
  | T1s :: TPs => some (tuple_cat_result_from T1s TPs)

/-- `make_tuple<R>(a, b, index_sequence<N1...>, index_sequence<N2...>)`:
`return R(amrex::get<N1>(a)..., amrex::get<N2>(b)...);`, where `R` has
`sizeof_R` element types, each the type of the argument it is built from. -/
def make_tuple {T : Type} (sizeof_R : Nat) (a b : GpuTuple T) (N1 N2 : List Nat) :
    Option (GpuTuple T) :=
  match expand (fun I => get I a) N1, expand (fun I => get I b) N2 with
  | some as, some bs => GpuTuple.ctor copy_conv sizeof_R (as ++ bs)
  | _, _ => none

end detail

/-- `TupleCat(a)`: `return ReturnType(std::forward<TP>(a));`, a copy of `a`. -/
def TupleCat_1 {T : Type} (a : GpuTuple T) : Option (GpuTuple T) := some a

/-- `TupleCat(a, b)`: `make_tuple<ReturnType>` with the index sequences of the two
tuples; `ReturnType` is `GpuTuple<T1s..., T2s...>`. -/
def TupleCat_2 {T : Type} (a b : GpuTuple T) : Option (GpuTuple T) :=
  detail.make_tuple (GpuTupleSize a + GpuTupleSize b) a b
    (make_index_sequence (GpuTupleSize a)) (make_index_sequence (GpuTupleSize b))

/-- `TupleCat(a, args...)` with at least one tuple: the overload for one tuple,
the overload for two, and for three or more
`return TupleCat(TupleCat(a, b), args...);`. -/
def TupleCat_from {T : Type} : GpuTuple T → List (GpuTuple T) → Option (GpuTuple T)
  | a, [] => TupleCat_1 a
  | a, [b] => TupleCat_2 a b
  | a, b :: c :: args => (TupleCat_2 a b).bind (fun ab => TupleCat_from ab (c :: args))

/-- The overload set `TupleCat`; no overload takes no argument. -/
def TupleCat {T : Type} : List (GpuTuple T) → Option (GpuTuple T)
  | [] => none
  | a :: args => TupleCat_from a args

/-! ## TupleSplit -/

namespace detail

/-- `SplitIndexList<Is...>::get<J>()`: `arr[J]` for the array `arr = {Is...}`;
a read outside the array is not a constant expression. -/
def SplitIndexList.get (Is : List Nat) (J : Nat) : Option Nat := Is[J]?

/-- The loop `for (k = 0; k < J; ++k) sum += arr[k];` of `get_exclusive_sum`,
from `k` on, with `count` iterations left. -/
def SplitIndexList.sum_loop (Is : List Nat) : Nat → Nat → Nat → Option Nat
  | 0, _, sum => some sum
  | count + 1, k, sum =>
    match Is[k]? with
    | some n => SplitIndexList.sum_loop Is count (k + 1) (size_t_add sum n)
    | none => none

/-- `SplitIndexList<Is...>::get_exclusive_sum<J>()`: the `std::size_t` sum of
`arr[0], ..., arr[J-1]`. -/
def SplitIndexList.get_exclusive_sum (Is : List Nat) (J : Nat) : Option Nat :=
  SplitIndexList.sum_loop Is J 0 0

/-- `GetSubTuple<start>(tup, index_sequence<Is...>)`:
`return makeTuple(amrex::get<start+Is>(tup)...);`. -/
def GetSubTuple {T T' : Type} (tuple_decay : T → T') (start : Nat) (tup : GpuTuple T)
    (Is : List Nat) : Option (GpuTuple T') :=
  (expand (fun I => get (size_t_add start I) tup) Is).bind (makeTuple tuple_decay)

/-- `TupleSplitImp(tup, index_sequence<Is...>, SIL)`: `makeTuple` of the
sub-tuples `GetSubTuple<SIL::get_exclusive_sum<Is>()>(tup,
make_index_sequence<SIL::get<Is>()>())...`.  The sub-tuples are moved into the
slots of the result. -/
def TupleSplitImp {T T' : Type} (tuple_decay : T → T') (tup : GpuTuple T) (Is : List Nat)
    (SIL : List Nat) : Option (GpuTuple (GpuTuple T')) :=
  (expand (fun J =>
      match SplitIndexList.get_exclusive_sum SIL J, SplitIndexList.get SIL J with
      | some start, some n => GetSubTuple tuple_decay start tup (make_index_sequence n)
      | _, _ => none) Is).bind (makeTuple (fun sub => sub))

end detail

/-- The fold `(0 + ... + Is)` over `std::size_t` values. -/
def size_t_sum (Is : List Nat) : Nat := Is.foldl size_t_add 0

/-- `TupleSplit<Is...>(tup)`: the `static_assert` that `(0 + ... + Is)` is
`sizeof...(Args)`, then `TupleSplitImp` with the index sequence of the sizes.
`tuple_decay` is the copy that `makeTuple` makes of a slot of `tup`. -/
def TupleSplit {T T' : Type} (tuple_decay : T → T') (Is : List Nat) (tup : GpuTuple T) :
    Option (GpuTuple (GpuTuple T')) :=
  if size_t_sum Is = GpuTupleSize tup then
    detail.TupleSplitImp tuple_decay tup (make_index_sequence Is.length) Is
  else none

/-! ## Apply -/

namespace detail

end detail

/-- `MakeZeroTuple(GpuTuple<Ts...>)`:
`return GpuTuple<Ts...>(static_cast<Ts>(0)...);`.  The parameter is unnamed;
`Ts` are its element types and `static_cast T z` is `static_cast<T>(z)`. -/
def MakeZeroTuple {τ T : Type} (static_cast : τ → Int → T) (Ts : List τ)
    (_tup : GpuTuple T) : Option (GpuTuple T) :=
  GpuTuple.ctor copy_conv Ts.length (Ts.map (fun U => static_cast U 0))

/-! ## tupleToArray -/

/-- Modelled from the spec: `GpuArray<T,N>` of `AMReX_Array.H`, "a fixed-size
homogeneous array", with its `N` elements in order. -/
structure GpuArray (T : Type) where
  N : Nat
  arr : List T

/-- Modelled from the spec: the aggregate initialisation `GpuArray<T,N>{vals...}`
with exactly `N` initialisers, "containing the elements in slot order"; it is
rejected with more than `N`, and the case of fewer does not occur here. -/
def GpuArray.init {T : Type} (N : Nat) (vals : List T) : Option (GpuArray T) :=
  if vals.length = N then some ⟨N, vals⟩ else none

/-- Modelled from the spec: `Same<T,Ts...>::value` of `AMReX_TypeTraits.H`,
true when "every element type ... is identical". -/
def Same {τ : Type} [DecidableEq τ] (T : τ) (Ts : List τ) : Bool :=
  Ts.all (fun U => decide (U = T))

namespace detail

/-- `tuple_to_array_helper(tup, index_sequence<I...>)`:
`return GpuArray<typename GpuTupleElement<0,T>::type, sizeof...(I)>{amrex::get<I>(tup)...};`. -/
def tuple_to_array_helper {T : Type} (tup : GpuTuple T) (I : List Nat) :
    Option (GpuArray T) :=
  (expand (fun i => get i tup) I).bind (GpuArray.init I.length)

end detail

/-- The overload `tupleToArray (GpuTuple<T> const& tup)`:
`return GpuArray<T,1>{amrex::get<0>(tup)};`.  `types` are the element types of
`tup`; the overload takes part when there is one. -/
def tupleToArray_1 {τ T : Type} (types : List τ) (tup : GpuTuple T) : Option (GpuArray T) :=
  match types with
  | [_] => (expand (fun i => get i tup) [0]).bind (GpuArray.init 1)
  | _ => none

/-- The overload `tupleToArray (GpuTuple<T,Ts...> const& tup)`, which takes part
when `Same<T,Ts...>::value`:
`return detail::tuple_to_array_helper(tup, std::index_sequence_for<T,Ts...>{});`. -/
def tupleToArray_n {τ T : Type} [DecidableEq τ] (types : List τ) (tup : GpuTuple T) :
    Option (GpuArray T) :=
  match types with
  | U :: Us =>
    if Same U Us then detail.tuple_to_array_helper tup (make_index_sequence (U :: Us).length)
    else none
  | [] => none

/-- The overload set `tupleToArray`: for `GpuTuple<T>` both overloads take part
and the first, the more specialised one, is selected. -/
def tupleToArray {τ T : Type} [DecidableEq τ] (types : List τ) (tup : GpuTuple T) :
    Option (GpuArray T) :=
  match types with
  | [_] => tupleToArray_1 types tup
  | _ => tupleToArray_n types tup

/-! ## Arithmetic element types used in the examples -/

/-- The element types `int` (32 bits) and `long` (64 bits). -/
inductive Arith where
  | int
  | long
  deriving DecidableEq

/-- The width of an arithmetic type in bits. -/
def Arith.bits : Arith → Nat
  | Arith.int => 32
  | Arith.long => 64

/-- A value of an arithmetic type: its type and the integer it represents. -/
structure ArithValue where
  type : Arith
  val : Int
  deriving DecidableEq

/-- The representable values of a signed type are `-2^(bits-1) .. 2^(bits-1)-1`. -/
def ArithValue.in_range (v : ArithValue) : Prop :=
  -(2 ^ (v.type.bits - 1) : Int) ≤ v.val ∧ v.val < 2 ^ (v.type.bits - 1)

/-- The value that represents `z` in a signed two's complement type of the width. -/
def wrap_signed (bits : Nat) (z : Int) : Int :=
  (z + 2 ^ (bits - 1)) % 2 ^ bits - 2 ^ (bits - 1)

/-- The conversion `static_cast<U>(z)` of an integer `z` to the arithmetic type `U`. -/
def static_cast_int (U : Arith) (z : Int) : ArithValue := ⟨U, wrap_signed U.bits z⟩

/-- The implicit conversion of an arithmetic value to the arithmetic type `U`. -/
def convert_to (U : Arith) (v : ArithValue) : ArithValue := static_cast_int U v.val

/-! ## Introspection of the element types -/

/-- `GpuTupleSize<GpuTuple<Ts...>>::value` as a function of the element types:
the `std::integral_constant` of `sizeof...(Ts)`. -/
def GpuTupleSize.value {τ : Type} (Ts : List τ) : Nat := Ts.length

/-- `GpuTupleElement<I, GpuTuple<Ts...>>::type`.  The specialisation for the
index `0` and `GpuTuple<Head, Tail...>` has `type = Head`; the one for `I` and
`GpuTuple<Head, Tail...>` derives from `GpuTupleElement<I-1, GpuTuple<Tail...>>`;
`GpuTuple<>` matches the primary template only, which is declared and never
defined. -/
def GpuTupleElement {τ : Type} : Nat → List τ → Option τ
  | _, [] => none
  | 0, Head :: _ => some Head
  | I + 1, _ :: Tail => GpuTupleElement I Tail

namespace std

/-- `std::tuple_size<amrex::GpuTuple<Ts...>>::value`, which is `sizeof...(Ts)`. -/
def tuple_size {τ : Type} (Ts : List τ) : Nat := Ts.length

/-- `std::tuple_element<s, amrex::GpuTuple<Ts...>>::type`.  The specialisation
for `std::size_t{0}` and `GpuTuple<T, Ts...>` has `type = T`; the one for `s` and
`GpuTuple<T, Ts...>` has the type of `std::tuple_element<s-1, GpuTuple<Ts...>>`;
there is no specialisation for `GpuTuple<>`. -/
def tuple_element {τ : Type} : Nat → List τ → Option τ
  | _, [] => none
  | 0, T :: _ => some T
  | s + 1, _ :: Ts => tuple_element s Ts

end std

/-! ## Construction from arguments that may not convert, and from a tuple -/

namespace detail

/-- The constructors of `gpu_tuple_impl<I,Ts...>` on arguments of any types.
`convert I a` is the conversion of the argument `a` to the type of slot `I`, and
there is none when `std::is_convertible_v` is false for the pair: then no
constructor of `gpu_tuple_element<I,_>` accepts the argument. -/
def gpu_tuple_impl.ctor_convert {A T : Type} (convert : Nat → A → Option T) :
    (I : Nat) → A → List A → Option (gpu_tuple_impl T I)
  | I, a_head, [] => (convert I a_head).map (fun v => gpu_tuple_impl.single ⟨v⟩)
  | I, a_head, a :: a_tail =>
    match gpu_tuple_impl.ctor_convert convert (I + 1) a a_tail, convert I a_head with
    | some base, some v => some (gpu_tuple_impl.cons base ⟨v⟩)
    | _, _ => none

end detail

/-- The initialisation `GpuTuple<Ts...>(src)` from one argument, a tuple `src` of
type `GpuTuple<Us...>`.  The implicitly declared copy and move constructors
accept `src` when `Us...` is `Ts...`, and give a copy.  The constructor
`GpuTuple(Ts const&... args)` has one parameter per element type and the
constructor `GpuTuple(Us&&... args)` takes part when the number of arguments is
`sizeof...(Ts)`; with one argument they pass `src` to the constructors of
`gpu_tuple_impl<0,Ts...>`.  `convert I` is the conversion of a `GpuTuple<Us...>`
to the type of slot `I`, when there is one. -/
def GpuTuple.ctor_from_tuple {τ V : Type} [DecidableEq τ] (Ts Us : List τ)
    (convert : Nat → GpuTuple V → Option V) (src : GpuTuple V) : Option (GpuTuple V) :=
  if Us = Ts then some src
  else if [src].length = Ts.length then detail.gpu_tuple_impl.ctor_convert convert 0 src []
  else none

/-! ## The slot type rule of `makeTuple` -/

/-- An object type without cv-qualifier: a named type, or
`std::reference_wrapper<U>` for an object type `U` with its cv-qualifiers. -/
inductive ObjectType (τ : Type) where
  | named (name : τ)
  | reference_wrapper (U_const U_volatile : Bool) (U : ObjectType τ)

/-- The three kinds of a type: not a reference, `&`, `&&`. -/
inductive RefKind where
  | none
  | lvalue
  | rvalue
  deriving DecidableEq

/-- A type `[const] [volatile] object [& | &&]`; arrays and functions are left
out. -/
structure CppType (τ : Type) where
  object : ObjectType τ
  is_const : Bool
  is_volatile : Bool
  reference : RefKind

namespace std

/-- `std::decay_t<T>` for a type that is no array and no function:
`std::remove_cv_t<std::remove_reference_t<T>>`. -/
def decay_t {τ : Type} (T : CppType τ) : CppType τ := ⟨T.object, false, false, RefKind.none⟩

end std

namespace detail

/-- `unwrap<T>::type`: `T&` for the specialisation
`unwrap<std::reference_wrapper<T>>`, and `T` for the primary template. -/
def unwrap {τ : Type} (T : CppType τ) : CppType τ :=
  match T with
  | ⟨ObjectType.reference_wrapper c v U, false, false, RefKind.none⟩ => ⟨U, c, v, RefKind.lvalue⟩
  | _ => T

/-- `tuple_decay_t<T>`: `typename unwrap<std::decay_t<T>>::type`. -/
def tuple_decay_t {τ : Type} (T : CppType τ) : CppType τ := unwrap (std.decay_t T)

end detail

/-- What a slot holds: a value when its type is an object type, and the location
its reference is bound to when its type is a reference. -/
inductive Slot (V : Type) where
  | value (v : V)
  | reference (loc : Nat)

/-- The value read through `get<I>` from a slot, in the storage `m`. -/
def Slot.read {V : Type} (m : Memory V) : Slot V → V
  | Slot.value v => v
  | Slot.reference loc => m loc

/-- An argument of `makeTuple`: its type, and the location of the object it
names; for a `std::reference_wrapper<U>` the location of the `U` it wraps. -/
structure Argument (τ : Type) where
  type : CppType τ
  storage : Nat

/-- The initialisation of a slot of type `tuple_decay_t<T>` from an argument of
type `T` in the storage `m`: a slot of reference type is bound to the object the
`std::reference_wrapper` wraps, a slot of object type is a copy of the value of
the argument. -/
def tuple_decay {τ V : Type} (m : Memory V) (a : Argument τ) : Slot V :=
  match (detail.tuple_decay_t a.type).reference with
  | RefKind.lvalue => Slot.reference a.storage
  | _ => Slot.value (m a.storage)

/-! ## Default construction -/

namespace detail

/-- The constructor `gpu_tuple_element ()`, which takes part when
`std::is_default_constructible_v<T>`; the body is empty and `m_value` has the
default member initialiser `{}`, the value-initialisation `value_init` of its
type. -/
def gpu_tuple_element.default_ctor {τ T : Type} (is_default_constructible : τ → Bool)
    (value_init : τ → T) (I : Nat) (U : τ) : Option (gpu_tuple_element I T) :=
  if is_default_constructible U then some ⟨value_init U⟩ else none

/-- The constructor `gpu_tuple_impl ()` of both specialisations, which takes
part when `std::is_default_constructible_v<Head>`; the body is empty, so the
bases are default-initialised. -/
def gpu_tuple_impl.default_ctor {τ T : Type} (is_default_constructible : τ → Bool)
    (value_init : τ → T) : (I : Nat) → τ → List τ → Option (gpu_tuple_impl T I)
  | I, Head, [] =>
    if is_default_constructible Head then
      (gpu_tuple_element.default_ctor is_default_constructible value_init I Head).map
        gpu_tuple_impl.single
    else none
  | I, Head, U :: Tail =>
    if is_default_constructible Head then
      match gpu_tuple_impl.default_ctor is_default_constructible value_init (I + 1) U Tail,
        gpu_tuple_element.default_ctor is_default_constructible value_init I Head with
      | some base, some elem => some (gpu_tuple_impl.cons base elem)
      | _, _ => none
    else none

end detail

/-- The constructor `GpuTuple () = default` of `GpuTuple<Ts...>`: it
default-initialises the base `gpu_tuple_impl<0,Ts...>`. -/
def GpuTuple.default_ctor {τ T : Type} (is_default_constructible : τ → Bool)
    (value_init : τ → T) : List τ → Option (GpuTuple T)
  | [] => none
  | Head :: Tail =>
    detail.gpu_tuple_impl.default_ctor is_default_constructible value_init 0 Head Tail

/-- The value-initialisation `T{}` of an arithmetic type: its zero. -/
def value_init_arith (U : Arith) : ArithValue := ⟨U, 0⟩

/-! ## ForwardAsTuple -/

/-- The value category of an expression. -/
inductive ValueCategory where
  | lvalue
  | rvalue
  deriving DecidableEq

/-- An argument `std::forward<Ts>(args)` of `ForwardAsTuple`, and also the slot of
type `Ts&&` bound to it: the location of the object, and whether the reference
is an lvalue reference (`Ts` is `X&`, the argument is an lvalue) or an rvalue
reference (`Ts` is `X`, the argument is an rvalue). -/
structure Forwarded where
  category : ValueCategory
  storage : Nat
  deriving DecidableEq

/-- `ForwardAsTuple(args...)`: `return GpuTuple<Ts&&...>(std::forward<Ts>(args)...);`. -/
def ForwardAsTuple (args : List Forwarded) : Option (GpuTuple Forwarded) :=
  GpuTuple.ctor copy_conv args.length args

namespace detail

/-- The overload `get_impl (gpu_tuple_element<I,T> && te)` with the return type
`T&&` and the body `return std::move(te).m_value;`, for a slot whose type `T` is
a reference.  The member access names the object referred to and is an lvalue.
For `T = X&` the return type is `X&` and binds to it; for `T = X&&` the return
type is `X&&`, which does not bind to an lvalue, so the instantiation is
rejected. -/
def get_impl_rvalue {I : Nat} (te : gpu_tuple_element I Forwarded) : Option Forwarded :=
  match te.m_value.category with
  | ValueCategory.lvalue => some te.m_value
  | ValueCategory.rvalue => none

end detail

/-- The overload `get<I> (GpuTuple<Ts...> && tup)` on a tuple of references:
`return detail::get_impl<I,Ts...>(std::move(tup));`. -/
def get_rvalue (I : Nat) (tup : GpuTuple Forwarded) : Option Forwarded :=
  (detail.gpu_tuple_impl.to_base I tup).bind detail.get_impl_rvalue

namespace detail

/-- `apply_impl(f, t, index_sequence<N...>)` when `t` is an rvalue tuple of
references, so that `amrex::get<N>(std::forward<TP>(t))` is the `&&` overload. -/
def apply_impl_rvalue {R : Type} (f : List Forwarded → Option R) (t : GpuTuple Forwarded)
    (N : List Nat) : Option R :=
  (expand (fun I => get_rvalue I t) N).bind f

end detail

/-- `Apply(f, t)` when `t` is an rvalue tuple of references, as in
`Apply(f, ForwardAsTuple(args...))`. -/
def Apply_rvalue {R : Type} (f : List Forwarded → Option R) (t : GpuTuple Forwarded) :
    Option R :=
  detail.apply_impl_rvalue f t (make_index_sequence (GpuTupleSize t))

/-! ## The composition of the slots -/

namespace detail

/-- The base classes `gpu_tuple_element<_,_>` of `gpu_tuple_impl<I,Head,Tail...>`,
each with its index and its type: the direct base `gpu_tuple_element<I,Head>`,
then the ones of the base `gpu_tuple_impl<I+1,Tail...>`. -/
def gpu_tuple_impl.element_bases {τ : Type} : Nat → τ → List τ → List (Nat × τ)
  | I, Head, [] => [(I, Head)]
  | I, Head, U :: Tail => (I, Head) :: gpu_tuple_impl.element_bases (I + 1) U Tail

/-- The number of times the specialisation `gpu_tuple_impl<I,Head,Tail...>` is
instantiated for a base `gpu_tuple_impl<I+1,Tail...>` before the specialisation
for one type is reached. -/
def gpu_tuple_impl.unfolding_steps {τ : Type} : τ → List τ → Nat
  | _, [] => 0
  | _, U :: Tail => gpu_tuple_impl.unfolding_steps U Tail + 1

end detail

/-- The number of times `GpuTupleElement<I, GpuTuple<Head, Tail...>>` derives
from `GpuTupleElement<I-1, GpuTuple<Tail...>>` before the specialisation for the
index `0` is reached; there is none when the undefined primary template is
reached instead. -/
def GpuTupleElement.steps {τ : Type} : Nat → List τ → Option Nat
  | _, [] => none
  | 0, _ :: _ => some 0
  | I + 1, _ :: Tail => (GpuTupleElement.steps I Tail).map (fun k => k + 1)

/-! ## The slots of a tuple as a list -/

namespace detail

/-- The values `m_value` of the bases `gpu_tuple_element<I,_>`,
`gpu_tuple_element<I+1,_>`, ... of a `gpu_tuple_impl<I,Ts...>`, in this order. -/
def gpu_tuple_impl.slots {T : Type} : {I : Nat} → gpu_tuple_impl T I → List T
  | _, gpu_tuple_impl.single elem => [elem.m_value]
  | _, gpu_tuple_impl.cons base elem => elem.m_value :: base.slots

end detail

/-- The consecutive pieces of a list with the given lengths. -/
def pieces {β : Type} : List Nat → List β → List (List β)
  | [], _ => []
  | n :: ns, l => l.take n :: pieces ns (l.drop n)

/-! ## Lemmas -/

namespace detail

theorem slots_length {T : Type} {I : Nat} (t : gpu_tuple_impl T I) :
    t.slots.length = t.size := by
  induction t with
  | single elem => rfl
  | cons base elem ih => simp [gpu_tuple_impl.slots, gpu_tuple_impl.size, ih]

theorem size_pos {T : Type} {I : Nat} (t : gpu_tuple_impl T I) : 0 < t.size := by
  cases t <;> simp [gpu_tuple_impl.size]

theorem to_base_below {T : Type} {I : Nat} (t : gpu_tuple_impl T I) (J : Nat) (h : J < I) :
    t.to_base J = none := by
  induction t with
  | single elem =>
    simp only [gpu_tuple_impl.to_base]
    rw [if_neg (by omega)]
  | cons base elem ih =>
    simp only [gpu_tuple_impl.to_base]
    rw [if_neg (by omega)]
    exact ih (by omega)

theorem to_base_slots {T : Type} {I : Nat} (t : gpu_tuple_impl T I) (k : Nat) :
    (t.to_base (I + k)).map get_impl = t.slots[k]? := by
  induction t generalizing k with
  | single elem =>
    cases k with
    | zero => simp [gpu_tuple_impl.to_base, gpu_tuple_impl.slots, get_impl]
    | succ k => simp [gpu_tuple_impl.to_base, gpu_tuple_impl.slots]
  | @cons I base elem ih =>
    cases k with
    | zero => simp [gpu_tuple_impl.to_base, gpu_tuple_impl.slots, get_impl]
    | succ k =>
      simp only [gpu_tuple_impl.to_base, gpu_tuple_impl.slots]
      rw [if_neg (by omega), List.getElem?_cons_succ, ← ih k]
      have : I + (k + 1) = I + 1 + k := by omega
      rw [this]

theorem slots_ctor {A T : Type} (conv : Nat → A → T) (I : Nat) (a_head : A) (a_tail : List A)
    (k : Nat) :
    (gpu_tuple_impl.ctor conv I a_head a_tail).slots[k]?
      = ((a_head :: a_tail)[k]?).map (conv (I + k)) := by
  induction a_tail generalizing I a_head k with
  | nil =>
    cases k with
    | zero => simp [gpu_tuple_impl.ctor, gpu_tuple_impl.slots]
    | succ k => simp [gpu_tuple_impl.ctor, gpu_tuple_impl.slots]
  | cons a as ih =>
    cases k with
    | zero => simp [gpu_tuple_impl.ctor, gpu_tuple_impl.slots]
    | succ k =>
      simp only [gpu_tuple_impl.ctor, gpu_tuple_impl.slots, List.getElem?_cons_succ]
      rw [ih (I + 1) a k]
      have : I + 1 + k = I + (k + 1) := by omega
      rw [this]

theorem slots_ctor_copy {T : Type} (I : Nat) (a_head : T) (a_tail : List T) :
    (gpu_tuple_impl.ctor copy_conv I a_head a_tail).slots = a_head :: a_tail := by
  induction a_tail generalizing I a_head with
  | nil => rfl
  | cons a as ih => simp [gpu_tuple_impl.ctor, gpu_tuple_impl.slots, ih, copy_conv]

theorem size_ctor {A T : Type} (conv : Nat → A → T) (I : Nat) (a_head : A) (a_tail : List A) :
    (gpu_tuple_impl.ctor conv I a_head a_tail).size = a_tail.length + 1 := by
  induction a_tail generalizing I a_head with
  | nil => rfl
  | cons a as ih => simp [gpu_tuple_impl.ctor, gpu_tuple_impl.size, ih]

theorem ctor_slots {T : Type} {I : Nat} (t : gpu_tuple_impl T I) :
    ∃ a_head a_tail, t.slots = a_head :: a_tail ∧
      t = gpu_tuple_impl.ctor copy_conv I a_head a_tail := by
  induction t with
  | single elem => exact ⟨elem.m_value, [], rfl, rfl⟩
  | cons base elem ih =>
    obtain ⟨b, bs, hs, hb⟩ := ih
    refine ⟨elem.m_value, b :: bs, by simp [gpu_tuple_impl.slots, hs], ?_⟩
    simp only [gpu_tuple_impl.ctor, copy_conv]
    rw [hb]

end detail

theorem get_eq_slots {T : Type} (tup : GpuTuple T) (I : Nat) :
    get I tup = (detail.gpu_tuple_impl.slots tup)[I]? := by
  have h := detail.to_base_slots tup I
  rw [Nat.zero_add] at h
  exact h

theorem size_eq_slots {T : Type} (tup : GpuTuple T) :
    GpuTupleSize tup = (detail.gpu_tuple_impl.slots tup).length :=
  (detail.slots_length tup).symm

theorem tuple_eq_ctor {T : Type} (tup : GpuTuple T) :
    GpuTuple.ctor copy_conv (GpuTupleSize tup) (detail.gpu_tuple_impl.slots tup) = some tup := by
  obtain ⟨a_head, a_tail, hs, ht⟩ := detail.ctor_slots tup
  rw [size_eq_slots, hs]
  simp only [GpuTuple.ctor, if_true]
  rw [← ht]

theorem ctor_some {A T : Type} (conv : Nat → A → T) (args : List A) (h : args ≠ []) :
    ∃ tup, GpuTuple.ctor conv args.length args = some tup ∧ GpuTupleSize tup = args.length ∧
      ∀ i, get i tup = (args[i]?).map (conv i) := by
  cases args with
  | nil => exact absurd rfl h
  | cons a_head a_tail =>
    refine ⟨detail.gpu_tuple_impl.ctor conv 0 a_head a_tail, by simp [GpuTuple.ctor], ?_, ?_⟩
    · simp [GpuTupleSize, detail.size_ctor]
    · intro i
      rw [get_eq_slots, detail.slots_ctor, Nat.zero_add]

theorem ctor_copy_slots {T : Type} (args : List T) (tup : GpuTuple T) (n : Nat)
    (h : GpuTuple.ctor copy_conv n args = some tup) :
    detail.gpu_tuple_impl.slots tup = args ∧ n = args.length := by
  cases args with
  | nil => simp [GpuTuple.ctor] at h
  | cons a_head a_tail =>
    simp only [GpuTuple.ctor] at h
    split at h
    · rename_i hn
      simp only [Option.some.injEq] at h
      rw [← h, detail.slots_ctor_copy]
      exact ⟨rfl, hn.symm⟩
    · simp at h

theorem slots_ne_nil {T : Type} (tup : GpuTuple T) : detail.gpu_tuple_impl.slots tup ≠ [] := by
  intro h
  have h1 := detail.size_pos tup
  rw [← detail.slots_length, h] at h1
  simp at h1

theorem slots_injective {T : Type} (a b : GpuTuple T)
    (h : detail.gpu_tuple_impl.slots a = detail.gpu_tuple_impl.slots b) : a = b := by
  have ha := tuple_eq_ctor a
  have hb := tuple_eq_ctor b
  rw [size_eq_slots, h] at ha
  rw [size_eq_slots] at hb
  rw [ha] at hb
  exact Option.some.inj hb

theorem expand_congr {α β : Type} (f g : α → Option β) (l : List α)
    (h : ∀ i ∈ l, f i = g i) : expand f l = expand g l := by
  induction l with
  | nil => rfl
  | cons i is ih =>
    simp only [expand]
    rw [h i (List.mem_cons_self _ _), ih (fun j hj => h j (List.mem_cons_of_mem _ hj))]

theorem expand_some {α β : Type} (g : α → β) (l : List α) :
    expand (fun i => some (g i)) l = some (l.map g) := by
  induction l with
  | nil => rfl
  | cons i is ih => simp [expand, ih]

theorem expand_map {α β γ : Type} (f : β → Option γ) (h : α → β) (l : List α) :
    expand f (l.map h) = expand (fun i => f (h i)) l := by
  induction l with
  | nil => rfl
  | cons i is ih => simp [expand, ih]

theorem expand_eq_some_length {α β : Type} (f : α → Option β) (l : List α) (r : List β)
    (h : expand f l = some r) : r.length = l.length := by
  induction l generalizing r with
  | nil => simp [expand] at h; simp [← h]
  | cons i is ih =>
    simp only [expand] at h
    split at h
    · rename_i x xs hx hxs
      simp only [Option.some.injEq] at h
      rw [← h, List.length_cons, List.length_cons, ih xs hxs]
    · simp at h

theorem expand_getElem?_range' {β : Type} (l : List β) (s n : Nat) (h : s + n ≤ l.length) :
    expand (fun i => l[i]?) (List.range' s n) = some ((l.drop s).take n) := by
  induction n generalizing s with
  | zero => simp [expand]
  | succ n ih =>
    have hs : s < l.length := by omega
    rw [List.range'_succ]
    simp only [expand]
    rw [ih (s + 1) (by omega), List.getElem?_eq_getElem hs]
    rw [List.drop_eq_getElem_cons hs, List.take_succ_cons]

theorem expand_get_range {T : Type} (tup : GpuTuple T) :
    expand (fun I => get I tup) (make_index_sequence (GpuTupleSize tup))
      = some (detail.gpu_tuple_impl.slots tup) := by
  have h := expand_getElem?_range' (detail.gpu_tuple_impl.slots tup) 0 (GpuTupleSize tup)
    (by rw [size_eq_slots]; omega)
  rw [make_index_sequence, List.range_eq_range']
  rw [expand_congr _ (fun i => (detail.gpu_tuple_impl.slots tup)[i]?) _
    (fun i _ => get_eq_slots tup i), h, size_eq_slots]
  simp

theorem makeTuple_some {A T : Type} (tuple_decay : A → T) (args : List A) (h : args ≠ []) :
    ∃ tup, makeTuple tuple_decay args = some tup ∧
      detail.gpu_tuple_impl.slots tup = args.map tuple_decay := by
  obtain ⟨tup, h1, h2, h3⟩ := ctor_some (fun _ => tuple_decay) args h
  refine ⟨tup, h1, ?_⟩
  apply List.ext_getElem?
  intro i
  rw [← get_eq_slots, h3, List.getElem?_map]

theorem TupleCat_2_slots {T : Type} (a b : GpuTuple T) :
    ∃ r, TupleCat_2 a b = some r ∧
      detail.gpu_tuple_impl.slots r
        = detail.gpu_tuple_impl.slots a ++ detail.gpu_tuple_impl.slots b := by
  have hne : detail.gpu_tuple_impl.slots a ++ detail.gpu_tuple_impl.slots b ≠ [] := by
    simp [slots_ne_nil a]
  obtain ⟨r, h1, _, _⟩ := ctor_some (copy_conv (T := T)) _ hne
  refine ⟨r, ?_, (ctor_copy_slots _ r _ h1).1⟩
  simp only [TupleCat_2, detail.make_tuple, expand_get_range]
  rw [← h1, List.length_append, size_eq_slots, size_eq_slots]

theorem TupleCat_from_slots {T : Type} (args : List (GpuTuple T)) (a : GpuTuple T) :
    ∃ r, TupleCat_from a args = some r ∧
      detail.gpu_tuple_impl.slots r
        = detail.gpu_tuple_impl.slots a
          ++ (args.map (fun t => detail.gpu_tuple_impl.slots t)).flatten := by
  induction args generalizing a with
  | nil => exact ⟨a, rfl, by simp⟩
  | cons b rest ih =>
    obtain ⟨ab, hab, hs⟩ := TupleCat_2_slots a b
    cases rest with
    | nil => exact ⟨ab, hab, by simp [hs]⟩
    | cons c args =>
      obtain ⟨r, hr, hrs⟩ := ih ab
      refine ⟨r, ?_, ?_⟩
      · simp only [TupleCat_from, hab, Option.bind]
        exact hr
      · rw [hrs, hs]
        simp

theorem flatten_getElem? {β : Type} (Ls : List (List β)) (j i : Nat) (hj : j < Ls.length)
    (hi : i < (Ls[j]).length) :
    (Ls.flatten)[((Ls.take j).map List.length).sum + i]? = some ((Ls[j])[i]) := by
  induction Ls generalizing j with
  | nil => simp at hj
  | cons L Ls ih =>
    cases j with
    | zero =>
      simp only [List.take_zero, List.map_nil, List.sum_nil, Nat.zero_add, List.flatten_cons,
        List.getElem_cons_zero]
      simp only [List.getElem_cons_zero] at hi
      rw [List.getElem?_append_left hi, List.getElem?_eq_getElem hi]
    | succ j =>
      simp only [List.take_succ_cons, List.map_cons, List.sum_cons, List.flatten_cons,
        List.getElem_cons_succ]
      simp only [List.getElem_cons_succ] at hi
      rw [List.getElem?_append_right (by omega)]
      have : L.length + (List.map List.length (List.take j Ls)).sum + i - L.length
          = (List.map List.length (List.take j Ls)).sum + i := by omega
      rw [this]
      exact ih j (by simpa using hj) hi

theorem size_t_add_eq (a b : Nat) (h : a + b < size_t_range) : size_t_add a b = a + b :=
  Nat.mod_eq_of_lt h

theorem sum_take_le (Is : List Nat) (J : Nat) : (Is.take J).sum ≤ Is.sum := by
  have h := List.sum_take_add_sum_drop Is J
  omega

theorem size_t_sum_from (Is : List Nat) (acc : Nat) (h : acc + Is.sum < size_t_range) :
    Is.foldl size_t_add acc = acc + Is.sum := by
  induction Is generalizing acc with
  | nil => simp
  | cons n ns ih =>
    simp only [List.sum_cons] at h
    simp only [List.foldl_cons, List.sum_cons]
    rw [size_t_add_eq acc n (by omega), ih (acc + n) (by omega)]
    omega

theorem size_t_sum_eq (Is : List Nat) (h : Is.sum < size_t_range) : size_t_sum Is = Is.sum := by
  rw [size_t_sum, size_t_sum_from Is 0 (by omega)]
  omega

theorem sum_loop_eq (Is : List Nat) (count k sum : Nat) (hk : k + count ≤ Is.length)
    (h : sum + ((Is.drop k).take count).sum < size_t_range) :
    detail.SplitIndexList.sum_loop Is count k sum
      = some (sum + ((Is.drop k).take count).sum) := by
  induction count generalizing k sum with
  | zero => simp [detail.SplitIndexList.sum_loop]
  | succ count ih =>
    have hlt : k < Is.length := by omega
    rw [List.drop_eq_getElem_cons hlt, List.take_succ_cons, List.sum_cons] at h
    simp only [detail.SplitIndexList.sum_loop]
    rw [List.getElem?_eq_getElem hlt]
    simp only
    rw [size_t_add_eq sum Is[k] (by omega), ih (k + 1) (sum + Is[k]) (by omega) (by omega)]
    rw [List.drop_eq_getElem_cons hlt, List.take_succ_cons, List.sum_cons]
    simp only [Option.some.injEq]
    omega

theorem get_exclusive_sum_eq (Is : List Nat) (J : Nat) (hJ : J ≤ Is.length)
    (h : Is.sum < size_t_range) :
    detail.SplitIndexList.get_exclusive_sum Is J = some ((Is.take J).sum) := by
  have hle := sum_take_le Is J
  have h1 := sum_loop_eq Is J 0 0 (by omega) (by simpa using by omega)
  simpa [detail.SplitIndexList.get_exclusive_sum] using h1

theorem expand_spec {α β : Type} (f : α → Option β) (l : List α)
    (h : ∀ i ∈ l, ∃ y, f i = some y) :
    ∃ r, expand f l = some r ∧ r.length = l.length ∧
      ∀ j (hj : j < l.length), r[j]? = f l[j] := by
  induction l with
  | nil => exact ⟨[], rfl, rfl, fun j hj => absurd hj (by simp)⟩
  | cons i is ih =>
    obtain ⟨y, hy⟩ := h i (List.mem_cons_self _ _)
    obtain ⟨r, hr, hlen, hidx⟩ := ih (fun j hj => h j (List.mem_cons_of_mem _ hj))
    refine ⟨y :: r, by simp [expand, hy, hr], by simp [hlen], ?_⟩
    intro j hj
    cases j with
    | zero => simp [hy]
    | succ j =>
      simp only [List.getElem?_cons_succ, List.getElem_cons_succ]
      exact hidx j (by simpa using hj)

theorem GetSubTuple_slots {T T' : Type} (tuple_decay : T → T') (tup : GpuTuple T)
    (start n : Nat) (hn : 1 ≤ n) (h : start + n ≤ GpuTupleSize tup)
    (hN : GpuTupleSize tup < size_t_range) :
    ∃ sub, detail.GetSubTuple tuple_decay start tup (make_index_sequence n) = some sub ∧
      detail.gpu_tuple_impl.slots sub
        = (((detail.gpu_tuple_impl.slots tup).drop start).take n).map tuple_decay := by
  have hlen : start + n ≤ (detail.gpu_tuple_impl.slots tup).length := by
    rw [← size_eq_slots]; exact h
  have he : expand (fun I => get (size_t_add start I) tup) (make_index_sequence n)
      = some (((detail.gpu_tuple_impl.slots tup).drop start).take n) := by
    rw [← expand_getElem?_range' _ start n hlen, List.range'_eq_map_range, expand_map,
      make_index_sequence]
    apply expand_congr
    intro i hi
    rw [List.mem_range] at hi
    rw [size_t_add_eq start i (by omega), get_eq_slots]
  have hne : ((detail.gpu_tuple_impl.slots tup).drop start).take n ≠ [] := by
    intro h0
    have := congrArg List.length h0
    simp at this
    omega
  obtain ⟨sub, hsub, hslots⟩ := makeTuple_some tuple_decay _ hne
  exact ⟨sub, by simp [detail.GetSubTuple, he, hsub], hslots⟩

theorem pieces_length {β : Type} (ns : List Nat) (l : List β) :
    (pieces ns l).length = ns.length := by
  induction ns generalizing l with
  | nil => rfl
  | cons n ns ih => simp [pieces, ih]

theorem pieces_getElem? {β : Type} (ns : List Nat) (l : List β) (j : Nat) (hj : j < ns.length) :
    (pieces ns l)[j]? = some ((l.drop (ns.take j).sum).take ns[j]) := by
  induction ns generalizing l j with
  | nil => simp at hj
  | cons n ns ih =>
    cases j with
    | zero => simp [pieces]
    | succ j =>
      simp only [pieces, List.getElem?_cons_succ, List.take_succ_cons, List.sum_cons,
        List.getElem_cons_succ]
      rw [ih (l.drop n) j (by simpa using hj), List.drop_drop]

theorem pieces_flatten {β : Type} (ns : List Nat) (l : List β) :
    (pieces ns l).flatten = l.take ns.sum := by
  induction ns generalizing l with
  | nil => simp [pieces]
  | cons n ns ih =>
    simp only [pieces, List.flatten_cons, List.sum_cons, ih]
    rw [← List.take_append_drop n (l.take (n + ns.sum)), List.take_take, List.drop_take]
    congr 2
    · omega
    · omega

theorem sum_take_succ_le (ns : List Nat) (j : Nat) (hj : j < ns.length) :
    (ns.take j).sum + ns[j] ≤ ns.sum := by
  have h := List.sum_take_add_sum_drop ns j
  rw [List.drop_eq_getElem_cons hj, List.sum_cons] at h
  omega

theorem TupleSplit_slots {T T' : Type} (tuple_decay : T → T') (tup : GpuTuple T)
    (sizes : List Nat) (hpos : ∀ n ∈ sizes, 1 ≤ n) (hsum : sizes.sum = GpuTupleSize tup)
    (hN : GpuTupleSize tup < size_t_range) :
    ∃ s, TupleSplit tuple_decay sizes tup = some s ∧
      (detail.gpu_tuple_impl.slots s).map (fun sub => detail.gpu_tuple_impl.slots sub)
        = pieces sizes ((detail.gpu_tuple_impl.slots tup).map tuple_decay) := by
  have hne : sizes ≠ [] := by
    intro h0
    have := detail.size_pos tup
    rw [h0] at hsum
    simp [GpuTupleSize] at hsum
    omega
  have hrange : sizes.sum < size_t_range := by omega
  have hF : ∀ J ∈ make_index_sequence sizes.length, ∃ sub,
      (match detail.SplitIndexList.get_exclusive_sum sizes J, detail.SplitIndexList.get sizes J with
        | some start, some n =>
          detail.GetSubTuple tuple_decay start tup (make_index_sequence n)
        | _, _ => none) = some sub := by
    intro J hJ
    rw [make_index_sequence, List.mem_range] at hJ
    have h1 := sum_take_succ_le sizes J hJ
    obtain ⟨sub, hsub, _⟩ := GetSubTuple_slots tuple_decay tup (sizes.take J).sum sizes[J]
      (hpos _ (List.getElem_mem hJ)) (by omega) hN
    refine ⟨sub, ?_⟩
    rw [get_exclusive_sum_eq sizes J (by omega) hrange, detail.SplitIndexList.get,
      List.getElem?_eq_getElem hJ]
    exact hsub
  obtain ⟨r, hr, hlen, hidx⟩ := expand_spec _ _ hF
  have hrne : r ≠ [] := by
    intro h0
    rw [h0, make_index_sequence, List.length_range] at hlen
    exact hne (List.length_eq_zero.mp hlen.symm)
  obtain ⟨s, hs, hslots⟩ := makeTuple_some (fun sub : GpuTuple T' => sub) r hrne
  refine ⟨s, ?_, ?_⟩
  · simp only [TupleSplit, detail.TupleSplitImp]
    rw [size_t_sum_eq sizes hrange, if_pos hsum, hr]
    exact hs
  · rw [hslots, List.map_id']
    apply List.ext_getElem?
    intro j
    rw [make_index_sequence, List.length_range] at hlen
    by_cases hj : j < sizes.length
    · have hj' : j < (make_index_sequence sizes.length).length := by
        rw [make_index_sequence, List.length_range]; exact hj
      have h2 := hidx j hj'
      have hjj : (make_index_sequence sizes.length)[j] = j := by
        simp [make_index_sequence]
      rw [hjj, get_exclusive_sum_eq sizes j (by omega) hrange, detail.SplitIndexList.get,
        List.getElem?_eq_getElem hj] at h2
      have h1 := sum_take_succ_le sizes j hj
      obtain ⟨sub, hsub, hsl⟩ := GetSubTuple_slots tuple_decay tup (sizes.take j).sum sizes[j]
        (hpos _ (List.getElem_mem hj)) (by omega) hN
      simp only at h2
      rw [hsub] at h2
      rw [List.getElem?_map, h2, pieces_getElem? _ _ j hj, Option.map_some', hsl,
        List.map_take, List.map_drop]
    · rw [List.getElem?_eq_none (by rw [List.length_map]; omega),
        List.getElem?_eq_none (by rw [pieces_length]; omega)]

theorem size_t_sub_one (N : Nat) (h1 : 1 ≤ N) (hN : N < size_t_range) :
    size_t_sub N 1 = N - 1 := by
  simp only [size_t_sub, size_t_range] at *
  omega

theorem tuple_copy_unfold {S : Type} (assign : Nat → S → Option S) (I N : Nat) (a : S)
    (h1 : 1 ≤ N) (hN : N < size_t_range) :
    detail.tuple_copy assign I N a
      = if I < N - 1 then (assign I a).bind (fun a' => detail.tuple_copy assign (I + 1) N a')
        else if I = N - 1 then assign I a else none := by
  simp only [detail.tuple_copy, size_t_sub_one N h1 hN]
  by_cases hlt : I < N - 1
  · have hf : N - 1 + 1 - I = (N - 1 + 1 - (I + 1)) + 1 := by omega
    rw [hf, detail.tuple_copy_steps, size_t_sub_one N h1 hN, if_pos hlt]
  · by_cases heq : I = N - 1
    · have hf : N - 1 + 1 - I = 0 + 1 := by omega
      rw [hf, detail.tuple_copy_steps, size_t_sub_one N h1 hN, if_neg hlt, if_neg hlt]
    · have hf : N - 1 + 1 - I = 0 := by omega
      rw [hf, detail.tuple_copy_steps, if_neg hlt, if_neg heq]

theorem assign_base_slots {T : Type} {I : Nat} (t : detail.gpu_tuple_impl T I) (k : Nat) (v : T)
    (hk : k < t.size) :
    ∃ t', t.assign_base (I + k) v = some t' ∧ t'.slots = t.slots.set k v := by
  induction t generalizing k with
  | single elem =>
    have : k = 0 := by simp [detail.gpu_tuple_impl.size] at hk; exact hk
    subst this
    exact ⟨detail.gpu_tuple_impl.single ⟨v⟩, by simp [detail.gpu_tuple_impl.assign_base],
      by simp [detail.gpu_tuple_impl.slots]⟩
  | @cons I base elem ih =>
    cases k with
    | zero =>
      exact ⟨detail.gpu_tuple_impl.cons base ⟨v⟩, by simp [detail.gpu_tuple_impl.assign_base],
        by simp [detail.gpu_tuple_impl.slots]⟩
    | succ k =>
      obtain ⟨b', hb, hs⟩ := ih k (by simp [detail.gpu_tuple_impl.size] at hk; exact hk)
      refine ⟨detail.gpu_tuple_impl.cons b' elem, ?_, ?_⟩
      · simp only [detail.gpu_tuple_impl.assign_base]
        rw [if_neg (by omega)]
        have : I + (k + 1) = I + 1 + k := by omega
        rw [this, hb]
        rfl
      · simp [detail.gpu_tuple_impl.slots, hs]

theorem assign_get_slots {U V : Type} (conv : Nat → U → V) (b : GpuTuple U) (a : GpuTuple V)
    (I : Nat) (ha : I < GpuTupleSize a) (hb : I < (detail.gpu_tuple_impl.slots b).length) :
    ∃ a', assign_get conv b I a = some a' ∧
      detail.gpu_tuple_impl.slots a'
        = (detail.gpu_tuple_impl.slots a).set I (conv I (detail.gpu_tuple_impl.slots b)[I]) := by
  obtain ⟨a', h1, h2⟩ := assign_base_slots a I (conv I (detail.gpu_tuple_impl.slots b)[I]) ha
  refine ⟨a', ?_, h2⟩
  rw [Nat.zero_add] at h1
  rw [assign_get, get_eq_slots, List.getElem?_eq_getElem hb]
  exact h1

theorem tuple_copy_value {U V : Type} (conv : Nat → U → V) (b : GpuTuple U) (N : Nat)
    (h1 : 1 ≤ N) (hN : N < size_t_range) (hb : GpuTupleSize b = N) (d : Nat) :
    ∀ (I : Nat) (a : GpuTuple V), I + d + 1 = N → GpuTupleSize a = N →
      ∃ a', detail.tuple_copy (assign_get conv b) I N a = some a' ∧
        GpuTupleSize a' = N ∧
        ∀ k, (detail.gpu_tuple_impl.slots a')[k]?
          = if I ≤ k then ((detail.gpu_tuple_impl.slots b)[k]?).map (conv k)
            else (detail.gpu_tuple_impl.slots a)[k]? := by
  induction d with
  | zero =>
    intro I a hI ha
    obtain ⟨a', h2, h3⟩ := assign_get_slots conv b a I (by omega)
      (by rw [← size_eq_slots]; omega)
    refine ⟨a', ?_, ?_, ?_⟩
    · rw [tuple_copy_unfold _ _ _ _ h1 hN, if_neg (by omega), if_pos (by omega), h2]
    · rw [size_eq_slots, h3, List.length_set, ← size_eq_slots, ha]
    · intro k
      rw [h3, List.getElem?_set]
      have hbl : (detail.gpu_tuple_impl.slots b).length = N := by rw [← size_eq_slots, hb]
      have hal : (detail.gpu_tuple_impl.slots a).length = N := by rw [← size_eq_slots, ha]
      by_cases hk : I = k
      · subst hk
        rw [if_pos rfl, if_pos (by omega), if_pos (Nat.le_refl _),
          List.getElem?_eq_getElem (by omega)]
        rfl
      · rw [if_neg hk]
        by_cases hle : I ≤ k
        · rw [if_pos hle, List.getElem?_eq_none (by omega), List.getElem?_eq_none (by omega)]
          rfl
        · rw [if_neg hle]
  | succ d ih =>
    intro I a hI ha
    obtain ⟨a1, h2, h3⟩ := assign_get_slots conv b a I (by omega)
      (by rw [← size_eq_slots]; omega)
    have ha1 : GpuTupleSize a1 = N := by
      rw [size_eq_slots, h3, List.length_set, ← size_eq_slots, ha]
    obtain ⟨a', h4, h5, h6⟩ := ih (I + 1) a1 (by omega) ha1
    refine ⟨a', ?_, h5, ?_⟩
    · rw [tuple_copy_unfold _ _ _ _ h1 hN, if_pos (by omega), h2]
      exact h4
    · intro k
      rw [h6 k, h3, List.getElem?_set]
      have hal : (detail.gpu_tuple_impl.slots a).length = N := by rw [← size_eq_slots, ha]
      by_cases hk : I = k
      · subst hk
        rw [if_neg (by omega), if_pos rfl, if_pos (by omega), if_pos (Nat.le_refl _),
          List.getElem?_eq_getElem (by rw [← size_eq_slots]; omega)]
        rfl
      · rw [if_neg hk]
        by_cases hle : I ≤ k
        · rw [if_pos hle, if_pos (by omega)]
        · rw [if_neg hle, if_neg (by omega)]

theorem tuple_copy_ref {U V : Type} (conv : Nat → U → V) (a : GpuTuple Nat) (b : GpuTuple U)
    (xs : List Nat) (vs : List U) (hxs : detail.gpu_tuple_impl.slots a = xs)
    (hvs : detail.gpu_tuple_impl.slots b = vs) (hd : xs.Nodup) (N : Nat)
    (h1 : 1 ≤ N) (hN : N < size_t_range) (hx : xs.length = N) (hv : vs.length = N) (d : Nat) :
    ∀ (I : Nat) (m : Memory V), I + d + 1 = N →
      ∃ m', detail.tuple_copy (assign_get_ref conv a b) I N m = some m' ∧
        (∀ k (hkx : k < xs.length) (hkv : k < vs.length), I ≤ k → m' xs[k] = conv k vs[k]) ∧
        (∀ l, (∀ k (hkx : k < xs.length), I ≤ k → xs[k] ≠ l) → m' l = m l) := by
  have hstep : ∀ (I : Nat) (m : Memory V) (hIx : I < xs.length) (hIv : I < vs.length),
      assign_get_ref conv a b I m = some (m.write xs[I] (conv I vs[I])) := by
    intro I m hIx hIv
    simp only [assign_get_ref]
    rw [get_eq_slots, get_eq_slots, hxs, hvs, List.getElem?_eq_getElem hIx,
      List.getElem?_eq_getElem hIv]
  induction d with
  | zero =>
    intro I m hI
    have hIx : I < xs.length := by omega
    have hIv : I < vs.length := by omega
    refine ⟨m.write xs[I] (conv I vs[I]), ?_, ?_, ?_⟩
    · rw [tuple_copy_unfold _ _ _ _ h1 hN, if_neg (by omega), if_pos (by omega),
        hstep I m hIx hIv]
    · intro k hkx hkv hle
      have hk : k = I := by omega
      subst hk
      simp [Memory.write]
    · intro l hl
      have := hl I hIx (Nat.le_refl _)
      simp only [Memory.write]
      rw [if_neg (fun h => this h.symm)]
  | succ d ih =>
    intro I m hI
    have hIx : I < xs.length := by omega
    have hIv : I < vs.length := by omega
    obtain ⟨m', h2, h3, h4⟩ := ih (I + 1) (m.write xs[I] (conv I vs[I])) (by omega)
    refine ⟨m', ?_, ?_, ?_⟩
    · rw [tuple_copy_unfold _ _ _ _ h1 hN, if_pos (by omega), hstep I m hIx hIv]
      exact h2
    · intro k hkx hkv hle
      by_cases hk : k = I
      · subst hk
        rw [h4 xs[k]]
        · simp [Memory.write]
        · intro j hjx hj heq
          have := (List.Nodup.getElem_inj_iff hd).mp heq
          omega
      · exact h3 k hkx hkv (by omega)
    · intro l hl
      rw [h4 l (fun k hkx hk => hl k hkx (by omega))]
      have := hl I hIx (Nat.le_refl _)
      simp only [Memory.write]
      rw [if_neg (fun h => this h.symm)]

theorem wrap_signed_of_range (bits : Nat) (hb : 1 ≤ bits) (z : Int)
    (h1 : -(2 ^ (bits - 1) : Int) ≤ z) (h2 : z < 2 ^ (bits - 1)) : wrap_signed bits z = z := by
  have hpow : (2 : Int) ^ bits = 2 * 2 ^ (bits - 1) := by
    have : bits = (bits - 1) + 1 := by omega
    conv => lhs; rw [this]
    exact pow_succ' 2 (bits - 1)
  simp only [wrap_signed]
  rw [Int.emod_eq_of_lt (by omega) (by omega)]
  omega

/-! ## Construction and `get` -/

/-- C1: for every list of values `vs` and every index `i` below its length, the
tuple directly constructed from `vs` and the tuple `makeTuple(vs...)` both exist,
have as many slots as `vs` has values, and `get<i>` of each is `vs[i]`. -/
theorem get_constructed_slot {T : Type} (vs : List T) (i : Nat) (h : i < vs.length) :
    (∃ tup, GpuTuple.ctor copy_conv vs.length vs = some tup ∧
        GpuTupleSize tup = vs.length ∧ get i tup = some vs[i]) ∧
    (∃ tup, makeTuple (fun v => v) vs = some tup ∧
        GpuTupleSize tup = vs.length ∧ get i tup = some vs[i]) := by
  have hne : vs ≠ [] := by
    intro h0
    rw [h0] at h
    simp at h
  constructor
  · obtain ⟨tup, h1, h2, h3⟩ := ctor_some (copy_conv (T := T)) vs hne
    refine ⟨tup, h1, h2, ?_⟩
    rw [h3, List.getElem?_eq_getElem h]
    rfl
  · obtain ⟨tup, h1, h2, h3⟩ := ctor_some (fun _ => fun v : T => v) vs hne
    refine ⟨tup, h1, h2, ?_⟩
    rw [h3, List.getElem?_eq_getElem h]
    rfl

/-- Witness of C1: `get<1>` of the tuple built from `(10, 20, 30)`. -/
theorem get_constructed_slot_witness :
    (∃ tup, GpuTuple.ctor copy_conv 3 [(10 : Int), 20, 30] = some tup ∧
        GpuTupleSize tup = 3 ∧ get 1 tup = some 20) ∧
    (∃ tup, makeTuple (fun v => v) [(10 : Int), 20, 30] = some tup ∧
        GpuTupleSize tup = 3 ∧ get 1 tup = some 20) :=
  get_constructed_slot [(10 : Int), 20, 30] 1 (by decide)

/-! ## TupleSplit and TupleCat -/

/-- C2: for a tuple `t` of arity `N` (a `std::size_t`) and sizes that are each at
least one and sum to `N`, `TupleSplit` returns a tuple `s`, `TupleCat` of the
slots `get<0>(s), get<1>(s), ...` of `s` returns a tuple `r` of arity `N`, and
slot `i` of `r` is the copy `tuple_decay` that `makeTuple` makes of slot `i` of
`t`, for every `i < N`; the copy of a value is the value. -/
theorem TupleSplit_TupleCat_roundtrip {T T' : Type} (tuple_decay : T → T') (t : GpuTuple T)
    (sizes : List Nat) (hpos : ∀ n ∈ sizes, 1 ≤ n) (hsum : sizes.sum = GpuTupleSize t)
    (hN : GpuTupleSize t < size_t_range) :
    ∃ s subs r, TupleSplit tuple_decay sizes t = some s ∧
      expand (fun J => get J s) (make_index_sequence (GpuTupleSize s)) = some subs ∧
      TupleCat subs = some r ∧ GpuTupleSize r = GpuTupleSize t ∧
      ∀ i, i < GpuTupleSize t → ∃ v, get i t = some v ∧ get i r = some (tuple_decay v) := by
  obtain ⟨s, hs, hslots⟩ := TupleSplit_slots tuple_decay t sizes hpos hsum hN
  obtain ⟨a, args, hcons, _⟩ := detail.ctor_slots s
  obtain ⟨r, hr, hrs⟩ := TupleCat_from_slots args a
  have hflat : detail.gpu_tuple_impl.slots r
      = (detail.gpu_tuple_impl.slots t).map tuple_decay := by
    have h1 : detail.gpu_tuple_impl.slots r
        = ((detail.gpu_tuple_impl.slots s).map
            (fun sub => detail.gpu_tuple_impl.slots sub)).flatten := by
      rw [hrs, hcons]
      simp
    rw [h1, hslots, pieces_flatten, hsum, size_eq_slots]
    rw [List.take_of_length_le (by simp)]
  refine ⟨s, detail.gpu_tuple_impl.slots s, r, hs, expand_get_range s, ?_, ?_, ?_⟩
  · rw [hcons]
    exact hr
  · rw [size_eq_slots, hflat, List.length_map, ← size_eq_slots]
  · intro i hi
    rw [size_eq_slots] at hi
    refine ⟨(detail.gpu_tuple_impl.slots t)[i], ?_, ?_⟩
    · rw [get_eq_slots, List.getElem?_eq_getElem hi]
    · rw [get_eq_slots, hflat, List.getElem?_map, List.getElem?_eq_getElem hi]
      rfl

/-- Witness of C2: `(1,2,3,4,5)` split with the sizes `(2,3)` and concatenated
again has the slots `1, 2, 3, 4, 5`. -/
theorem TupleSplit_TupleCat_roundtrip_witness :
    ∃ s subs r,
      TupleSplit (fun v => v) [2, 3] (detail.gpu_tuple_impl.ctor copy_conv 0 (1 : Int) [2, 3, 4, 5])
        = some s ∧
      expand (fun J => get J s) (make_index_sequence (GpuTupleSize s)) = some subs ∧
      TupleCat subs = some r ∧
      GpuTupleSize r
        = GpuTupleSize (detail.gpu_tuple_impl.ctor copy_conv 0 (1 : Int) [2, 3, 4, 5]) ∧
      ∀ i, i < GpuTupleSize (detail.gpu_tuple_impl.ctor copy_conv 0 (1 : Int) [2, 3, 4, 5]) →
        ∃ v, get i (detail.gpu_tuple_impl.ctor copy_conv 0 (1 : Int) [2, 3, 4, 5]) = some v ∧
          get i r = some v :=
  TupleSplit_TupleCat_roundtrip (fun v => v)
    (detail.gpu_tuple_impl.ctor copy_conv 0 (1 : Int) [2, 3, 4, 5]) [2, 3]
    (by decide) (by decide) (by decide)

/-- Counterexample to C3 as stated: the sizes `(0, 2)` sum to the arity of the
tuple `(1, 2)`, and `TupleSplit<0,2>` of it is rejected, because its first
sub-tuple would be a tuple of no element. -/
theorem TupleSplit_size_zero_rejected :
    ∃ t : GpuTuple Int, GpuTuple.ctor copy_conv 2 [1, 2] = some t ∧
      [0, 2].sum = GpuTupleSize t ∧ TupleSplit (fun v : Int => v) [0, 2] t = none :=
  ⟨detail.gpu_tuple_impl.ctor copy_conv 0 1 [2], rfl, by decide, rfl⟩

/-- C3, amended: for a tuple `t` of arity `N` (a `std::size_t`) and sizes that are
each at least one and sum to `N`, `TupleSplit` returns a tuple with one slot per
size; slot `j` holds a sub-tuple of arity `sizes[j]`, and slot `i` of that
sub-tuple is the copy of slot `sizes[0] + ... + sizes[j-1] + i` of `t`. -/
theorem TupleSplit_sub_tuples {T T' : Type} (tuple_decay : T → T') (t : GpuTuple T)
    (sizes : List Nat) (hpos : ∀ n ∈ sizes, 1 ≤ n) (hsum : sizes.sum = GpuTupleSize t)
    (hN : GpuTupleSize t < size_t_range) :
    ∃ s, TupleSplit tuple_decay sizes t = some s ∧ GpuTupleSize s = sizes.length ∧
      ∀ j (hj : j < sizes.length), ∃ sub, get j s = some sub ∧
        GpuTupleSize sub = sizes[j] ∧
        ∀ i, i < sizes[j] → ∃ v, get ((sizes.take j).sum + i) t = some v ∧
          get i sub = some (tuple_decay v) := by
  obtain ⟨s, hs, hslots⟩ := TupleSplit_slots tuple_decay t sizes hpos hsum hN
  have hlen : (detail.gpu_tuple_impl.slots s).length = sizes.length := by
    have := congrArg List.length hslots
    rw [List.length_map, pieces_length] at this
    exact this
  refine ⟨s, hs, by rw [size_eq_slots, hlen], ?_⟩
  intro j hj
  have hj' : j < (detail.gpu_tuple_impl.slots s).length := by omega
  have hsub := congrArg (fun L => L[j]?) hslots
  simp only [List.getElem?_map, pieces_getElem? _ _ j hj, List.getElem?_eq_getElem hj',
    Option.map_some', Option.some.injEq] at hsub
  have hle := sum_take_succ_le sizes j hj
  have hNl : GpuTupleSize t = (detail.gpu_tuple_impl.slots t).length := size_eq_slots t
  refine ⟨(detail.gpu_tuple_impl.slots s)[j], ?_, ?_, ?_⟩
  · rw [get_eq_slots, List.getElem?_eq_getElem hj']
  · rw [size_eq_slots, hsub, List.length_take, List.length_drop, List.length_map]
    omega
  · intro i hi
    have hlt : (sizes.take j).sum + i < (detail.gpu_tuple_impl.slots t).length := by omega
    refine ⟨(detail.gpu_tuple_impl.slots t)[(sizes.take j).sum + i], ?_, ?_⟩
    · rw [get_eq_slots, List.getElem?_eq_getElem hlt]
    · rw [get_eq_slots, hsub, List.getElem?_take_of_lt hi, List.getElem?_drop,
        List.getElem?_map, List.getElem?_eq_getElem hlt]
      rfl

/-- Witness of C3, amended: `(1,2,3,4,5)` split with the sizes `(2,3)`. -/
theorem TupleSplit_sub_tuples_witness :
    ∃ s, TupleSplit (fun v => v) [2, 3] (detail.gpu_tuple_impl.ctor copy_conv 0 (1 : Int) [2, 3, 4, 5])
        = some s ∧ GpuTupleSize s = [2, 3].length ∧
      ∀ j (hj : j < [2, 3].length), ∃ sub, get j s = some sub ∧
        GpuTupleSize sub = [2, 3][j] ∧
        ∀ i, i < [2, 3][j] →
          ∃ v, get (([2, 3].take j).sum + i)
              (detail.gpu_tuple_impl.ctor copy_conv 0 (1 : Int) [2, 3, 4, 5]) = some v ∧
            get i sub = some v :=
  TupleSplit_sub_tuples (fun v => v)
    (detail.gpu_tuple_impl.ctor copy_conv 0 (1 : Int) [2, 3, 4, 5]) [2, 3]
    (by decide) (by decide) (by decide)

/-- C4: `TupleCat(a, b)` returns a tuple whose arity is the sum of the two
arities, whose slot `i` is slot `i` of `a` for `i` below the arity of `a`, and
whose slot `i` is slot `i - n1` of `b` for the other indices, `n1` being the arity
of `a`. -/
theorem TupleCat_two_slots {T : Type} (a b : GpuTuple T) :
    ∃ r, TupleCat [a, b] = some r ∧ GpuTupleSize r = GpuTupleSize a + GpuTupleSize b ∧
      (∀ i, i < GpuTupleSize a → ∃ v, get i a = some v ∧ get i r = some v) ∧
      (∀ i, GpuTupleSize a ≤ i → i < GpuTupleSize a + GpuTupleSize b →
        ∃ v, get (i - GpuTupleSize a) b = some v ∧ get i r = some v) := by
  obtain ⟨r, hr, hs⟩ := TupleCat_2_slots a b
  refine ⟨r, hr, ?_, ?_, ?_⟩
  · rw [size_eq_slots, hs, List.length_append, ← size_eq_slots, ← size_eq_slots]
  · intro i hi
    rw [size_eq_slots] at hi
    refine ⟨(detail.gpu_tuple_impl.slots a)[i], ?_, ?_⟩
    · rw [get_eq_slots, List.getElem?_eq_getElem hi]
    · rw [get_eq_slots, hs, List.getElem?_append_left hi, List.getElem?_eq_getElem hi]
  · intro i h1 h2
    rw [size_eq_slots a] at h1
    rw [size_eq_slots a, size_eq_slots b] at h2
    have hb : i - (detail.gpu_tuple_impl.slots a).length
        < (detail.gpu_tuple_impl.slots b).length := by omega
    refine ⟨(detail.gpu_tuple_impl.slots b)[i - (detail.gpu_tuple_impl.slots a).length], ?_, ?_⟩
    · rw [get_eq_slots, size_eq_slots, List.getElem?_eq_getElem hb]
    · rw [get_eq_slots, hs, List.getElem?_append_right h1, List.getElem?_eq_getElem hb]

/-- Witness of C4: `TupleCat((1,2), (3,4,5))` at the slots `1` and `3`. -/
theorem TupleCat_two_slots_witness :
    ∃ r, TupleCat [detail.gpu_tuple_impl.ctor copy_conv 0 (1 : Int) [2],
        detail.gpu_tuple_impl.ctor copy_conv 0 (3 : Int) [4, 5]] = some r ∧
      GpuTupleSize r = 5 ∧ get 1 r = some 2 ∧ get 3 r = some 4 := by
  obtain ⟨r, hr, hsize, ha, hb⟩ := TupleCat_two_slots
    (detail.gpu_tuple_impl.ctor copy_conv 0 (1 : Int) [2])
    (detail.gpu_tuple_impl.ctor copy_conv 0 (3 : Int) [4, 5])
  refine ⟨r, hr, hsize, ?_, ?_⟩
  · obtain ⟨v, hv, hrv⟩ := ha 1 (by decide)
    rw [hrv, ← hv]
    decide
  · obtain ⟨v, hv, hrv⟩ := hb 3 (by decide) (by decide)
    rw [hrv, ← hv]
    decide

/-- C5: a call of `TupleCat` with three or more tuples is
`TupleCat(TupleCat(t1, t2), t3, ...)`; it returns a tuple whose arity is the sum
of the arities and whose slots are the slots of the first tuple, then those of
the second, and so on: slot `i` of the tuple number `j` is the slot of the result
with index `i` plus the arities of the tuples before it. -/
theorem TupleCat_pairwise_is_flat {T : Type} (ts : List (GpuTuple T)) (hk : 3 ≤ ts.length) :
    (∃ t1 t2 args, ts = t1 :: t2 :: args ∧
      TupleCat ts = (TupleCat [t1, t2]).bind (fun t12 => TupleCat (t12 :: args))) ∧
    ∃ r, TupleCat ts = some r ∧ GpuTupleSize r = (ts.map GpuTupleSize).sum ∧
      ∀ j (hj : j < ts.length) i, i < GpuTupleSize ts[j] →
        ∃ v, get i ts[j] = some v ∧
          get (((ts.take j).map GpuTupleSize).sum + i) r = some v := by
  match ts, hk with
  | t1 :: t2 :: t3 :: rest, _ =>
    refine ⟨⟨t1, t2, t3 :: rest, rfl, rfl⟩, ?_⟩
    obtain ⟨r, hr, hs⟩ := TupleCat_from_slots (t2 :: t3 :: rest) t1
    have hflat : detail.gpu_tuple_impl.slots r
        = ((t1 :: t2 :: t3 :: rest).map (fun t => detail.gpu_tuple_impl.slots t)).flatten := by
      rw [hs]
      simp
    have hlens : ∀ (l : List (GpuTuple T)),
        (l.map (fun t => detail.gpu_tuple_impl.slots t)).map List.length
          = l.map GpuTupleSize := by
      intro l
      rw [List.map_map]
      apply List.map_congr_left
      intro t _
      exact (size_eq_slots t).symm
    refine ⟨r, hr, ?_, ?_⟩
    · rw [size_eq_slots, hflat, List.length_flatten, hlens]
    · intro j hj i hi
      have hj' : j < ((t1 :: t2 :: t3 :: rest).map
          (fun t => detail.gpu_tuple_impl.slots t)).length := by
        rw [List.length_map]; exact hj
      have hi' : i < (((t1 :: t2 :: t3 :: rest).map
          (fun t => detail.gpu_tuple_impl.slots t))[j]).length := by
        rw [List.getElem_map, ← size_eq_slots]; exact hi
      have h := flatten_getElem? _ j i hj' hi'
      rw [← List.map_take, hlens] at h
      rw [size_eq_slots] at hi
      refine ⟨(detail.gpu_tuple_impl.slots (t1 :: t2 :: t3 :: rest)[j])[i], ?_, ?_⟩
      · rw [get_eq_slots]
        exact List.getElem?_eq_getElem hi
      · rw [get_eq_slots, hflat, h]
        simp only [List.getElem_map]

/-- Witness of C5: `TupleCat((1,2), (3), (4,5))`, at slot `1` of the third tuple. -/
theorem TupleCat_pairwise_is_flat_witness :
    ∃ r, TupleCat [detail.gpu_tuple_impl.ctor copy_conv 0 (1 : Int) [2],
        detail.gpu_tuple_impl.ctor copy_conv 0 (3 : Int) [],
        detail.gpu_tuple_impl.ctor copy_conv 0 (4 : Int) [5]] = some r ∧
      GpuTupleSize r = 5 ∧ get 4 r = some 5 := by
  obtain ⟨_, r, hr, hsize, hslot⟩ := TupleCat_pairwise_is_flat
    [detail.gpu_tuple_impl.ctor copy_conv 0 (1 : Int) [2],
      detail.gpu_tuple_impl.ctor copy_conv 0 (3 : Int) [],
      detail.gpu_tuple_impl.ctor copy_conv 0 (4 : Int) [5]] (by decide)
  refine ⟨r, hr, hsize, ?_⟩
  obtain ⟨v, hv, hrv⟩ := hslot 2 (by decide) 1 (by decide)
  have h5 : v = 5 := by
    have : some v = some (5 : Int) := by rw [← hv]; decide
    exact Option.some.inj this
  rw [← h5]
  exact hrv

/-! ## Apply -/

/-- C7: for a target `dst` and a source `src` with the same number of object
element types (a `std::size_t`), the converting assignment `dst = src` returns,
in its copy and in its move variant, the same tuple, of the arity of `dst`, whose
slot `i` is the conversion `conv i` of slot `i` of `src`; and when the conversion
is the one from `int` to `long`, the slot holds the `long` that represents the
same integer as the `int` of the source. -/
theorem converting_assignment_slots :
    (∀ (U V : Type) (conv : Nat → U → V) (dst : GpuTuple V) (src : GpuTuple U),
      GpuTupleSize src = GpuTupleSize dst → GpuTupleSize dst < size_t_range →
      ∃ r, GpuTuple.operator_assign conv dst src = some r ∧
        GpuTuple.operator_assign_move conv dst src = some r ∧
        GpuTupleSize r = GpuTupleSize dst ∧
        ∀ i, i < GpuTupleSize dst → ∃ v, get i src = some v ∧ get i r = some (conv i v)) ∧
    (∀ (dst src : GpuTuple ArithValue),
      GpuTupleSize src = GpuTupleSize dst → GpuTupleSize dst < size_t_range →
      (∀ i v, get i src = some v → v.type = Arith.int ∧ v.in_range) →
      ∃ r, GpuTuple.operator_assign (fun _ => convert_to Arith.long) dst src = some r ∧
        ∀ i, i < GpuTupleSize dst →
          ∃ v, get i src = some v ∧ get i r = some ⟨Arith.long, v.val⟩) := by
  have hgen : ∀ (U V : Type) (conv : Nat → U → V) (dst : GpuTuple V) (src : GpuTuple U),
      GpuTupleSize src = GpuTupleSize dst → GpuTupleSize dst < size_t_range →
      ∃ r, GpuTuple.operator_assign conv dst src = some r ∧
        GpuTuple.operator_assign_move conv dst src = some r ∧
        GpuTupleSize r = GpuTupleSize dst ∧
        ∀ i, i < GpuTupleSize dst →
          ∃ v, get i src = some v ∧ get i r = some (conv i v) := by
    intro U V conv dst src hsize hN
    have hpos : 1 ≤ GpuTupleSize dst := detail.size_pos dst
    obtain ⟨r, hr, hrs, hslots⟩ := tuple_copy_value conv src (GpuTupleSize dst) hpos hN hsize
      (GpuTupleSize dst - 1) 0 dst (by omega) rfl
    refine ⟨r, ?_, ?_, hrs, ?_⟩
    · rw [GpuTuple.operator_assign, if_pos hsize]
      exact hr
    · rw [GpuTuple.operator_assign_move, if_pos hsize]
      exact hr
    · intro i hi
      have hlt : i < (detail.gpu_tuple_impl.slots src).length := by
        rw [← size_eq_slots, hsize]; exact hi
      refine ⟨(detail.gpu_tuple_impl.slots src)[i], ?_, ?_⟩
      · rw [get_eq_slots, List.getElem?_eq_getElem hlt]
      · rw [get_eq_slots, hslots i, if_pos (Nat.zero_le _), List.getElem?_eq_getElem hlt]
        rfl
  refine ⟨hgen, ?_⟩
  intro dst src hsize hN hint
  obtain ⟨r, hr, _, _, hslots⟩ := hgen _ _ (fun _ => convert_to Arith.long) dst src hsize hN
  refine ⟨r, hr, ?_⟩
  intro i hi
  obtain ⟨v, hv, hrv⟩ := hslots i hi
  refine ⟨v, hv, ?_⟩
  rw [hrv]
  obtain ⟨hty, hlo, hhi⟩ := hint i v hv
  rw [hty] at hlo hhi
  simp only [Arith.bits] at hlo hhi
  simp only [convert_to, static_cast_int, Arith.bits]
  rw [wrap_signed_of_range 64 (by omega) v.val (by omega) (by omega)]

/-- Witness of C7: `(7, 8)` of type `(int, int)` assigned to a `(long, long)`
tuple gives `(7L, 8L)`. -/
theorem converting_assignment_slots_witness :
    ∃ r, GpuTuple.operator_assign (fun _ => convert_to Arith.long)
        (detail.gpu_tuple_impl.ctor copy_conv 0 (⟨Arith.long, 0⟩ : ArithValue) [⟨Arith.long, 0⟩])
        (detail.gpu_tuple_impl.ctor copy_conv 0 (⟨Arith.int, 7⟩ : ArithValue) [⟨Arith.int, 8⟩])
        = some r ∧
      get 0 r = some ⟨Arith.long, 7⟩ ∧ get 1 r = some ⟨Arith.long, 8⟩ := by
  obtain ⟨r, hr, hslots⟩ := converting_assignment_slots.2
    (detail.gpu_tuple_impl.ctor copy_conv 0 (⟨Arith.long, 0⟩ : ArithValue) [⟨Arith.long, 0⟩])
    (detail.gpu_tuple_impl.ctor copy_conv 0 (⟨Arith.int, 7⟩ : ArithValue) [⟨Arith.int, 8⟩])
    (by decide) (by decide)
    (by
      intro i v hv
      rw [get_eq_slots] at hv
      match i, hv with
      | 0, hv =>
        have : v = ⟨Arith.int, 7⟩ := (Option.some.inj hv).symm
        subst this
        exact ⟨rfl, by norm_num [ArithValue.in_range, Arith.bits]⟩
      | 1, hv =>
        have : v = ⟨Arith.int, 8⟩ := (Option.some.inj hv).symm
        subst this
        exact ⟨rfl, by norm_num [ArithValue.in_range, Arith.bits]⟩
      | i + 2, hv => simp [detail.gpu_tuple_impl.slots, detail.gpu_tuple_impl.ctor] at hv)
  refine ⟨r, hr, ?_, ?_⟩
  · obtain ⟨v, hv, hrv⟩ := hslots 0 (by decide)
    have : v = ⟨Arith.int, 7⟩ := (Option.some.inj hv).symm
    rw [hrv, this]
  · obtain ⟨v, hv, hrv⟩ := hslots 1 (by decide)
    have : v = ⟨Arith.int, 8⟩ := (Option.some.inj hv).symm
    rw [hrv, this]

/-! ## Tie -/

/-- C8: for pairwise distinct storage locations `xs` and as many values `vs` (at
least one, their number a `std::size_t`), `Tie(xs...)` and `makeTuple(vs...)`
exist and the assignment `Tie(xs...) = makeTuple(vs...)` returns a storage in
which each location `xs[i]` holds `vs[i]` and every location that is not one of
`xs` holds what it held before. -/
theorem Tie_assignment_writes_storage {V : Type} (xs : List Nat) (vs : List V) (m : Memory V)
    (hd : xs.Nodup) (hlen : xs.length = vs.length) (hne : 1 ≤ xs.length)
    (hN : xs.length < size_t_range) :
    ∃ a b m', Tie xs = some a ∧ makeTuple (fun v => v) vs = some b ∧
      GpuTuple.operator_assign_ref copy_conv a b m = some m' ∧
      (∀ i (hx : i < xs.length) (hv : i < vs.length), m' xs[i] = vs[i]) ∧
      (∀ l, l ∉ xs → m' l = m l) := by
  have hxne : xs ≠ [] := by
    intro h0; rw [h0] at hne; simp at hne
  have hvne : vs ≠ [] := by
    intro h0; rw [h0] at hlen; rw [hlen] at hne; simp at hne
  obtain ⟨a, ha, _, _⟩ := ctor_some (copy_conv (T := Nat)) xs hxne
  have has : detail.gpu_tuple_impl.slots a = xs := (ctor_copy_slots xs a _ ha).1
  obtain ⟨b, hb, hbs⟩ := makeTuple_some (fun v : V => v) vs hvne
  rw [List.map_id'] at hbs
  have hsa : GpuTupleSize a = xs.length := by rw [size_eq_slots, has]
  have hsb : GpuTupleSize b = vs.length := by rw [size_eq_slots, hbs]
  obtain ⟨m', hm, h1, h2⟩ := tuple_copy_ref (copy_conv (T := V)) a b xs vs has hbs hd xs.length
    hne hN rfl hlen.symm (xs.length - 1) 0 m (by omega)
  refine ⟨a, b, m', ha, hb, ?_, ?_, ?_⟩
  · rw [GpuTuple.operator_assign_ref, if_pos (by rw [hsa, hsb, hlen]), hsa]
    exact hm
  · intro i hx hv
    exact h1 i hx hv (Nat.zero_le _)
  · intro l hl
    apply h2
    intro k hkx _ heq
    exact hl (heq ▸ List.getElem_mem hkx)

/-- Witness of C8: `Tie(x, y) = makeTuple(10, 20)` for `x` at location `4` and `y`
at location `9` of a storage that holds `0` everywhere leaves `x = 10`, `y = 20`
and the location `5` unchanged. -/
theorem Tie_assignment_writes_storage_witness :
    ∃ a b m', Tie [4, 9] = some a ∧ makeTuple (fun v => v) [(10 : Int), 20] = some b ∧
      GpuTuple.operator_assign_ref copy_conv a b (fun _ => (0 : Int)) = some m' ∧
      m' 4 = 10 ∧ m' 9 = 20 ∧ m' 5 = 0 := by
  obtain ⟨a, b, m', ha, hb, hm, h1, h2⟩ := Tie_assignment_writes_storage [4, 9]
    [(10 : Int), 20] (fun _ => (0 : Int)) (by decide) (by decide) (by decide) (by decide)
  exact ⟨a, b, m', ha, hb, hm, h1 0 (by decide) (by decide), h1 1 (by decide) (by decide),
    h2 5 (by decide)⟩

/-! ## MakeZeroTuple -/

/-- C9: for element types `Ts` and a tuple `t` of these types, `MakeZeroTuple`
returns a tuple of the arity of `t` whose slot `i` is `static_cast<Ts[i]>(0)`,
the zero of the type of the slot, and it returns the same tuple for every other
argument of the type of `t`; for the arithmetic types `int` and `long` the slot
is the value of its type that represents the integer `0`. -/
theorem MakeZeroTuple_slots_zero :
    (∀ (τ T : Type) (static_cast : τ → Int → T) (Ts : List τ) (t : GpuTuple T),
      Ts.length = GpuTupleSize t →
      ∃ z, MakeZeroTuple static_cast Ts t = some z ∧ GpuTupleSize z = GpuTupleSize t ∧
        (∀ i (h : i < Ts.length), get i z = some (static_cast Ts[i] 0)) ∧
        ∀ t' : GpuTuple T, MakeZeroTuple static_cast Ts t' = some z) ∧
    (∀ (Ts : List Arith) (t : GpuTuple ArithValue), Ts.length = GpuTupleSize t →
      ∃ z, MakeZeroTuple static_cast_int Ts t = some z ∧
        ∀ i (h : i < Ts.length), get i z = some ⟨Ts[i], 0⟩) := by
  have hgen : ∀ (τ T : Type) (static_cast : τ → Int → T) (Ts : List τ) (t : GpuTuple T),
      Ts.length = GpuTupleSize t →
      ∃ z, MakeZeroTuple static_cast Ts t = some z ∧ GpuTupleSize z = GpuTupleSize t ∧
        (∀ i (h : i < Ts.length), get i z = some (static_cast Ts[i] 0)) ∧
        ∀ t' : GpuTuple T, MakeZeroTuple static_cast Ts t' = some z := by
    intro τ T static_cast Ts t hlen
    have hne : Ts.map (fun U => static_cast U 0) ≠ [] := by
      intro h0
      have h1 := congrArg List.length h0
      have h2 := detail.size_pos t
      simp only [List.length_map, List.length_nil] at h1
      unfold GpuTupleSize at hlen
      omega
    obtain ⟨z, hz, hsize, hslots⟩ := ctor_some (copy_conv (T := T)) _ hne
    rw [List.length_map] at hz hsize
    refine ⟨z, hz, by rw [hsize, hlen], ?_, fun _ => hz⟩
    intro i h
    rw [hslots i, List.getElem?_map, List.getElem?_eq_getElem h]
    rfl
  refine ⟨hgen, ?_⟩
  intro Ts t hlen
  obtain ⟨z, hz, _, hslots, _⟩ := hgen Arith ArithValue static_cast_int Ts t hlen
  refine ⟨z, hz, ?_⟩
  intro i h
  rw [hslots i h]
  cases Ts[i] <;> rfl

/-- Witness of C9: `MakeZeroTuple` of an `(int, long, int)` tuple that holds
`(5, 6, 7)` is `(0, 0L, 0)`. -/
theorem MakeZeroTuple_slots_zero_witness :
    ∃ z, MakeZeroTuple static_cast_int [Arith.int, Arith.long, Arith.int]
        (detail.gpu_tuple_impl.ctor copy_conv 0 (⟨Arith.int, 5⟩ : ArithValue)
          [⟨Arith.long, 6⟩, ⟨Arith.int, 7⟩]) = some z ∧
      get 0 z = some ⟨Arith.int, 0⟩ ∧ get 1 z = some ⟨Arith.long, 0⟩ ∧
      get 2 z = some ⟨Arith.int, 0⟩ := by
  obtain ⟨z, hz, hslots⟩ := MakeZeroTuple_slots_zero.2 [Arith.int, Arith.long, Arith.int]
    (detail.gpu_tuple_impl.ctor copy_conv 0 (⟨Arith.int, 5⟩ : ArithValue)
      [⟨Arith.long, 6⟩, ⟨Arith.int, 7⟩]) (by decide)
  exact ⟨z, hz, hslots 0 (by decide), hslots 1 (by decide), hslots 2 (by decide)⟩

/-! ## tupleToArray -/

/-- C10: for a tuple `t` whose element types `types` are all one type `U`,
`tupleToArray`, through its general overload and as the overload set, returns an
array of as many elements as `t` has slots, whose element `i` is `get<i>(t)`;
when `t` has one slot the overload for one element type returns that array too. -/
theorem tupleToArray_elements {τ T : Type} [DecidableEq τ] (types : List τ) (t : GpuTuple T)
    (U : τ) (hlen : types.length = GpuTupleSize t) (hsame : ∀ X ∈ types, X = U) :
    ∃ arr, tupleToArray_n types t = some arr ∧ tupleToArray types t = some arr ∧
      (GpuTupleSize t = 1 → tupleToArray_1 types t = some arr) ∧
      arr.N = GpuTupleSize t ∧ arr.arr.length = GpuTupleSize t ∧
      ∀ i (h : i < arr.arr.length), get i t = some arr.arr[i] := by
  have hn : tupleToArray_n types t
      = some ⟨GpuTupleSize t, detail.gpu_tuple_impl.slots t⟩ := by
    match types, hlen, hsame with
    | [], hlen, _ =>
      have := detail.size_pos t
      simp [GpuTupleSize] at hlen
      omega
    | X :: Xs, hlen, hsame =>
      have hS : Same X Xs = true := by
        simp only [Same, List.all_eq_true, decide_eq_true_eq]
        intro Y hY
        rw [hsame Y (List.mem_cons_of_mem _ hY), hsame X (List.mem_cons_self _ _)]
      simp only [tupleToArray_n, hS, if_true, detail.tuple_to_array_helper, hlen,
        expand_get_range, Option.bind, GpuArray.init]
      rw [if_pos (by rw [make_index_sequence, List.length_range, size_eq_slots])]
      rw [make_index_sequence, List.length_range]
  have h1 : GpuTupleSize t = 1 → tupleToArray_1 types t
      = some ⟨GpuTupleSize t, detail.gpu_tuple_impl.slots t⟩ := by
    intro hone
    have hl : (detail.gpu_tuple_impl.slots t).length = 1 := by rw [← size_eq_slots, hone]
    match types, hlen with
    | [X], _ =>
      obtain ⟨s0, hs0⟩ := List.length_eq_one.mp hl
      simp [tupleToArray_1, expand, get_eq_slots, hs0, GpuArray.init, hone]
    | [], hlen => simp [hone] at hlen
    | _ :: _ :: _, hlen => simp [hone] at hlen
  refine ⟨⟨GpuTupleSize t, detail.gpu_tuple_impl.slots t⟩, hn, ?_, h1, rfl,
    (size_eq_slots t).symm, ?_⟩
  · match types, hlen, hn, h1 with
    | [X], hlen, _, h1 =>
      simp only [tupleToArray]
      exact h1 (by simpa using hlen.symm)
    | [], _, hn, _ => simpa [tupleToArray] using hn
    | _ :: _ :: _, _, hn, _ => simpa [tupleToArray] using hn
  · intro i h
    rw [get_eq_slots]
    exact List.getElem?_eq_getElem h

/-- Witness of C10: `tupleToArray` of `(1, 2, 3)` with three element types `int`
is the array `[1, 2, 3]`. -/
theorem tupleToArray_elements_witness :
    ∃ arr, tupleToArray [Arith.int, Arith.int, Arith.int]
        (detail.gpu_tuple_impl.ctor copy_conv 0 (1 : Int) [2, 3]) = some arr ∧
      arr.N = 3 ∧ arr.arr = [1, 2, 3] := by
  obtain ⟨arr, _, harr, _, hN, _, _⟩ := tupleToArray_elements [Arith.int, Arith.int, Arith.int]
    (detail.gpu_tuple_impl.ctor copy_conv 0 (1 : Int) [2, 3]) Arith.int (by decide)
    (by decide)
  refine ⟨arr, harr, hN, ?_⟩
  have h2 : tupleToArray [Arith.int, Arith.int, Arith.int]
      (detail.gpu_tuple_impl.ctor copy_conv 0 (1 : Int) [2, 3]) = some ⟨3, [1, 2, 3]⟩ := rfl
  rw [h2] at harr
  rw [← Option.some.inj harr]

/-! ## Lemmas on `tupleToArray`, `tuple_cat_result` and `TupleCat` -/

theorem Same_eq_true_iff {τ : Type} [DecidableEq τ] (X : τ) (Xs : List τ) :
    Same X Xs = true ↔ ∀ Y ∈ Xs, Y = X := by
  simp [Same]

theorem tupleToArray_n_of_same {τ T : Type} [DecidableEq τ] (X : τ) (Xs : List τ)
    (t : GpuTuple T) (hlen : (X :: Xs).length = GpuTupleSize t) (hS : Same X Xs = true) :
    tupleToArray_n (X :: Xs) t = some ⟨GpuTupleSize t, detail.gpu_tuple_impl.slots t⟩ := by
  simp only [tupleToArray_n, hS, if_true, detail.tuple_to_array_helper, hlen,
    expand_get_range, Option.bind, GpuArray.init]
  rw [if_pos (by rw [make_index_sequence, List.length_range, size_eq_slots])]
  rw [make_index_sequence, List.length_range]

theorem tupleToArray_1_of_one {τ T : Type} (X : τ) (t : GpuTuple T) :
    ∃ v, get 0 t = some v ∧ tupleToArray_1 [X] t = some ⟨1, [v]⟩ := by
  obtain ⟨a_head, a_tail, hs, _⟩ := detail.ctor_slots t
  refine ⟨a_head, by rw [get_eq_slots, hs, List.getElem?_cons_zero], ?_⟩
  simp [tupleToArray_1, expand, get_eq_slots, hs, GpuArray.init]

theorem tuple_cat_result_from_eq {τ : Type} (TPs : List (List τ)) (T1s : List τ) :
    detail.tuple_cat_result_from T1s TPs = T1s ++ TPs.flatten := by
  induction TPs generalizing T1s with
  | nil => simp [detail.tuple_cat_result_from]
  | cons T2s TPs ih => simp [detail.tuple_cat_result_from, ih]

theorem TupleCat_slots {T : Type} (ts : List (GpuTuple T)) (h : ts ≠ []) :
    ∃ r, TupleCat ts = some r ∧
      detail.gpu_tuple_impl.slots r
        = (ts.map (fun t => detail.gpu_tuple_impl.slots t)).flatten := by
  cases ts with
  | nil => exact absurd rfl h
  | cons a args =>
    obtain ⟨r, hr, hs⟩ := TupleCat_from_slots args a
    exact ⟨r, hr, by rw [hs]; simp⟩

theorem map_slots_length {T : Type} (l : List (GpuTuple T)) :
    (l.map (fun t => detail.gpu_tuple_impl.slots t)).map List.length = l.map GpuTupleSize := by
  rw [List.map_map]
  apply List.map_congr_left
  intro t _
  exact (size_eq_slots t).symm

/-! ## Rejection by `tupleToArray` -/

/-- C11: for a tuple `t` with the element types `types`, the overload set
`tupleToArray` has a result exactly when all the element types are the same; it
has one whenever there is one element type; and with two or more element types,
two of them different, neither overload takes part and the call is rejected. -/
theorem tupleToArray_defined_iff_same {τ T : Type} [DecidableEq τ] (types : List τ)
    (t : GpuTuple T) (hlen : types.length = GpuTupleSize t) :
    ((tupleToArray types t).isSome = true ↔ ∀ X ∈ types, ∀ Y ∈ types, X = Y) ∧
    (types.length = 1 → (tupleToArray types t).isSome = true) ∧
    (2 ≤ types.length → (∃ X ∈ types, ∃ Y ∈ types, X ≠ Y) →
      tupleToArray_1 types t = none ∧ tupleToArray_n types t = none ∧
        tupleToArray types t = none) := by
  match types, hlen with
  | [], hlen =>
    have := detail.size_pos t
    unfold GpuTupleSize at hlen
    simp only [List.length_nil] at hlen
    omega
  | [X], _ =>
    obtain ⟨v, _, hv⟩ := tupleToArray_1_of_one X t
    have hsome : (tupleToArray [X] t).isSome = true := by
      simp only [tupleToArray, hv, Option.isSome_some]
    refine ⟨⟨fun _ => ?_, fun _ => hsome⟩, fun _ => hsome, fun h2 => ?_⟩
    · intro A hA B hB
      rw [List.mem_singleton] at hA hB
      rw [hA, hB]
    · simp at h2
  | X :: Y :: rest, hlen =>
    have hcases : tupleToArray (X :: Y :: rest) t = tupleToArray_n (X :: Y :: rest) t := rfl
    have h1none : tupleToArray_1 (X :: Y :: rest) t = none := rfl
    by_cases hS : Same X (Y :: rest) = true
    · have hall := (Same_eq_true_iff X (Y :: rest)).mp hS
      have hpair : ∀ A ∈ X :: Y :: rest, ∀ B ∈ X :: Y :: rest, A = B := by
        intro A hA B hB
        have hAX : A = X := by
          rcases List.mem_cons.mp hA with h | h
          · exact h
          · exact hall A h
        have hBX : B = X := by
          rcases List.mem_cons.mp hB with h | h
          · exact h
          · exact hall B h
        rw [hAX, hBX]
      have hsome : (tupleToArray (X :: Y :: rest) t).isSome = true := by
        rw [hcases, tupleToArray_n_of_same X (Y :: rest) t hlen hS]
        rfl
      refine ⟨⟨fun _ => hpair, fun _ => hsome⟩, fun h1 => by simp at h1, ?_⟩
      intro _ hdiff
      obtain ⟨A, hA, B, hB, hne⟩ := hdiff
      exact absurd (hpair A hA B hB) hne
    · have hnone : tupleToArray_n (X :: Y :: rest) t = none := by
        simp only [tupleToArray_n]
        rw [if_neg hS]
      refine ⟨⟨fun hs => ?_, fun hpair => ?_⟩, fun h1 => by simp at h1,
        fun _ _ => ⟨h1none, hnone, by rw [hcases, hnone]⟩⟩
      · rw [hcases, hnone] at hs
        simp at hs
      · exfalso
        apply hS
        rw [Same_eq_true_iff]
        intro Z hZ
        exact hpair Z (List.mem_cons_of_mem _ hZ) X (List.mem_cons_self _ _)

/-- Witness of C11: `tupleToArray` of an `(int, long)` tuple is rejected. -/
theorem tupleToArray_defined_iff_same_witness :
    tupleToArray_1 [Arith.int, Arith.long]
        (detail.gpu_tuple_impl.ctor copy_conv 0 (1 : Int) [2]) = none ∧
      tupleToArray_n [Arith.int, Arith.long]
        (detail.gpu_tuple_impl.ctor copy_conv 0 (1 : Int) [2]) = none ∧
      tupleToArray [Arith.int, Arith.long]
        (detail.gpu_tuple_impl.ctor copy_conv 0 (1 : Int) [2]) = none :=
  (tupleToArray_defined_iff_same [Arith.int, Arith.long]
    (detail.gpu_tuple_impl.ctor copy_conv 0 (1 : Int) [2]) (by decide)).2.2 (by decide)
    ⟨Arith.int, by decide, Arith.long, by decide, by decide⟩

/-! ## Arity of `TupleCat` -/

/-- C12: for one or more tuples, `TupleCat` returns a tuple whose `GpuTupleSize`
is the sum of the arities of the inputs, and for one or more lists of element
types `tuple_cat_result` is a list of element types whose `GpuTupleSize` is the
sum of the `GpuTupleSize` of the inputs. -/
theorem TupleCat_arity_is_sum {T τ : Type} (ts : List (GpuTuple T)) (Tss : List (List τ))
    (hts : 1 ≤ ts.length) (hTss : 1 ≤ Tss.length) :
    (∃ r, TupleCat ts = some r ∧ GpuTupleSize r = (ts.map GpuTupleSize).sum) ∧
    (∃ R, detail.tuple_cat_result Tss = some R ∧
      GpuTupleSize.value R = (Tss.map GpuTupleSize.value).sum) := by
  constructor
  · have hne : ts ≠ [] := by
      intro h0; rw [h0] at hts; simp at hts
    obtain ⟨r, hr, hs⟩ := TupleCat_slots ts hne
    exact ⟨r, hr, by rw [size_eq_slots, hs, List.length_flatten, map_slots_length]⟩
  · match Tss, hTss with
    | T1s :: TPs, _ =>
      refine ⟨detail.tuple_cat_result_from T1s TPs, rfl, ?_⟩
      rw [tuple_cat_result_from_eq]
      simp only [GpuTupleSize.value, List.length_append, List.length_flatten, List.map_cons,
        List.sum_cons]
      rfl

/-- Witness of C12: `TupleCat((1,2), (3), (4,5))` has arity `5`, and so has the
result type for element type lists of the lengths `2`, `1` and `2`. -/
theorem TupleCat_arity_is_sum_witness :
    (∃ r, TupleCat [detail.gpu_tuple_impl.ctor copy_conv 0 (1 : Int) [2],
        detail.gpu_tuple_impl.ctor copy_conv 0 (3 : Int) [],
        detail.gpu_tuple_impl.ctor copy_conv 0 (4 : Int) [5]] = some r ∧
      GpuTupleSize r = 5) ∧
    (∃ R, detail.tuple_cat_result [[Arith.int, Arith.long], [Arith.int],
        [Arith.long, Arith.long]] = some R ∧ GpuTupleSize.value R = 5) :=
  TupleCat_arity_is_sum
    [detail.gpu_tuple_impl.ctor copy_conv 0 (1 : Int) [2],
      detail.gpu_tuple_impl.ctor copy_conv 0 (3 : Int) [],
      detail.gpu_tuple_impl.ctor copy_conv 0 (4 : Int) [5]]
    [[Arith.int, Arith.long], [Arith.int], [Arith.long, Arith.long]] (by decide) (by decide)

/-- C13: `TupleCat(t)` of one tuple returns a tuple of the arity of `t` whose slot
`i` is slot `i` of `t` for every index of `t`, and the result type for one list
of element types is that list. -/
theorem TupleCat_single_is_identity {T τ : Type} (t : GpuTuple T) (Ts : List τ) :
    (∃ r, TupleCat [t] = some r ∧ GpuTupleSize r = GpuTupleSize t ∧
      ∀ i, i < GpuTupleSize t → ∃ v, get i t = some v ∧ get i r = some v) ∧
    detail.tuple_cat_result [Ts] = some Ts := by
  refine ⟨?_, rfl⟩
  obtain ⟨r, hr, hs⟩ := TupleCat_slots [t] (by simp)
  have hst : detail.gpu_tuple_impl.slots r = detail.gpu_tuple_impl.slots t := by
    rw [hs]; simp
  refine ⟨r, hr, by rw [size_eq_slots, hst, ← size_eq_slots], ?_⟩
  intro i hi
  rw [size_eq_slots] at hi
  exact ⟨(detail.gpu_tuple_impl.slots t)[i], by rw [get_eq_slots, List.getElem?_eq_getElem hi],
    by rw [get_eq_slots, hst, List.getElem?_eq_getElem hi]⟩

/-- Witness of C13: `TupleCat((1,2,3))` has the slots `1, 2, 3`. -/
theorem TupleCat_single_is_identity_witness :
    ∃ r, TupleCat [detail.gpu_tuple_impl.ctor copy_conv 0 (1 : Int) [2, 3]] = some r ∧
      GpuTupleSize r = 3 ∧ get 0 r = some 1 ∧ get 1 r = some 2 ∧ get 2 r = some 3 := by
  obtain ⟨⟨r, hr, hsize, hslots⟩, _⟩ := TupleCat_single_is_identity
    (detail.gpu_tuple_impl.ctor copy_conv 0 (1 : Int) [2, 3]) [Arith.int, Arith.int, Arith.int]
  refine ⟨r, hr, hsize, ?_, ?_, ?_⟩
  · obtain ⟨v, hv, hrv⟩ := hslots 0 (by decide)
    rw [hrv, ← hv]; rfl
  · obtain ⟨v, hv, hrv⟩ := hslots 1 (by decide)
    rw [hrv, ← hv]; rfl
  · obtain ⟨v, hv, hrv⟩ := hslots 2 (by decide)
    rw [hrv, ← hv]; rfl

/-- Counterexample to C14 as stated: the call of `TupleCat` with no tuple does not
return a tuple of arity `0`. -/
theorem TupleCat_no_input_not_accepted :
    ¬ ∃ r : GpuTuple Int, TupleCat ([] : List (GpuTuple Int)) = some r ∧ GpuTupleSize r = 0 := by
  rintro ⟨r, hr, _⟩
  simp [TupleCat] at hr

/-- C14, amended: a call of `TupleCat` with no tuple is rejected, the result type
`tuple_cat_result<>` for no tuple type is undefined, every tuple has at least one
slot, and the construction of a tuple from no argument is rejected. -/
theorem TupleCat_no_input_rejected {T τ : Type} :
    TupleCat ([] : List (GpuTuple T)) = none ∧
    detail.tuple_cat_result ([] : List (List τ)) = none ∧
    (∀ t : GpuTuple T, 1 ≤ GpuTupleSize t) ∧
    (∀ (conv : Nat → T → T) (n : Nat), GpuTuple.ctor conv n ([] : List T) = none) :=
  ⟨rfl, rfl, fun t => detail.size_pos t, fun _ _ => rfl⟩

/-! ## Rejection by `TupleSplit` -/

theorem expand_none_of_mem {α β : Type} (f : α → Option β) (l : List α) (i : α) (hi : i ∈ l)
    (hf : f i = none) : expand f l = none := by
  induction l with
  | nil => simp at hi
  | cons j js ih =>
    simp only [expand]
    rcases List.mem_cons.mp hi with h | h
    · rw [← h, hf]
    · rw [ih h]
      cases f j <;> rfl

theorem exists_crossing (sizes : List Nat) (N : Nat) (h : N < sizes.sum) :
    ∃ j, ∃ hj : j < sizes.length, (sizes.take j).sum ≤ N ∧ N < (sizes.take j).sum + sizes[j] := by
  induction sizes generalizing N with
  | nil => simp at h
  | cons n ns ih =>
    by_cases hn : N < n
    · exact ⟨0, by simp, by simp, by simpa using hn⟩
    · rw [List.sum_cons] at h
      obtain ⟨j, hj, h1, h2⟩ := ih (N - n) (by omega)
      refine ⟨j + 1, by simpa using hj, ?_, ?_⟩
      · simp only [List.take_succ_cons, List.sum_cons]
        omega
      · simp only [List.take_succ_cons, List.sum_cons, List.getElem_cons_succ]
        omega

theorem get_exclusive_sum_of_le (Is : List Nat) (J : Nat) (hJ : J ≤ Is.length)
    (h : (Is.take J).sum < size_t_range) :
    detail.SplitIndexList.get_exclusive_sum Is J = some ((Is.take J).sum) := by
  have h1 := sum_loop_eq Is J 0 0 (by omega) (by simpa using h)
  simpa [detail.SplitIndexList.get_exclusive_sum] using h1

theorem get_none_of_le {T : Type} (t : GpuTuple T) (I : Nat) (h : GpuTupleSize t ≤ I) :
    get I t = none := by
  rw [get_eq_slots]
  exact List.getElem?_eq_none (by rw [← size_eq_slots]; exact h)

theorem TupleSplitImp_none_of_large {T T' : Type} (tuple_decay : T → T') (t : GpuTuple T)
    (sizes : List Nat) (hN : GpuTupleSize t < size_t_range) (h : GpuTupleSize t < sizes.sum) :
    detail.TupleSplitImp tuple_decay t (make_index_sequence sizes.length) sizes = none := by
  obtain ⟨j, hj, h1, h2⟩ := exists_crossing sizes (GpuTupleSize t) h
  have hF : (match detail.SplitIndexList.get_exclusive_sum sizes j,
        detail.SplitIndexList.get sizes j with
      | some start, some n => detail.GetSubTuple tuple_decay start t (make_index_sequence n)
      | _, _ => none) = none := by
    rw [get_exclusive_sum_of_le sizes j (by omega) (by omega), detail.SplitIndexList.get,
      List.getElem?_eq_getElem hj]
    simp only [detail.GetSubTuple]
    rw [expand_none_of_mem _ _ (GpuTupleSize t - (sizes.take j).sum)
      (by rw [make_index_sequence, List.mem_range]; omega)
      (by
        rw [size_t_add_eq _ _ (by omega)]
        exact get_none_of_le t _ (by omega))]
    rfl
  simp only [detail.TupleSplitImp]
  rw [expand_none_of_mem _ _ j (by rw [make_index_sequence, List.mem_range]; exact hj) hF]
  rfl

/-- C15: for a tuple `t` of arity `N` (a `std::size_t`) and sizes whose sum is not
`N`, `TupleSplit` has no result. -/
theorem TupleSplit_rejects_wrong_sum {T T' : Type} (tuple_decay : T → T') (t : GpuTuple T)
    (sizes : List Nat) (hN : GpuTupleSize t < size_t_range)
    (hsum : sizes.sum ≠ GpuTupleSize t) :
    TupleSplit tuple_decay sizes t = none := by
  simp only [TupleSplit]
  by_cases hlt : sizes.sum < GpuTupleSize t
  · rw [if_neg]
    rw [size_t_sum_eq sizes (by omega)]
    exact hsum
  · rw [TupleSplitImp_none_of_large tuple_decay t sizes hN (by omega)]
    simp

/-- Witness of C15: `TupleSplit<1,2>` and `TupleSplit<1>` of the tuple `(1,2)` are
rejected. -/
theorem TupleSplit_rejects_wrong_sum_witness :
    TupleSplit (fun v => v) [1, 2] (detail.gpu_tuple_impl.ctor copy_conv 0 (1 : Int) [2]) = none ∧
    TupleSplit (fun v => v) [1] (detail.gpu_tuple_impl.ctor copy_conv 0 (1 : Int) [2]) = none :=
  ⟨TupleSplit_rejects_wrong_sum (fun v => v)
      (detail.gpu_tuple_impl.ctor copy_conv 0 (1 : Int) [2]) [1, 2] (by decide) (by decide),
    TupleSplit_rejects_wrong_sum (fun v => v)
      (detail.gpu_tuple_impl.ctor copy_conv 0 (1 : Int) [2]) [1] (by decide) (by decide)⟩

/-! ## The index space and the introspection of the element types -/

theorem GpuTupleElement_eq_getElem? {τ : Type} (Ts : List τ) (I : Nat) :
    GpuTupleElement I Ts = Ts[I]? := by
  induction Ts generalizing I with
  | nil => cases I <;> simp [GpuTupleElement]
  | cons Head Tail ih =>
    cases I with
    | zero => simp [GpuTupleElement]
    | succ I => simp [GpuTupleElement, ih]

theorem tuple_element_eq_getElem? {τ : Type} (Ts : List τ) (s : Nat) :
    std.tuple_element s Ts = Ts[s]? := by
  induction Ts generalizing s with
  | nil => cases s <;> simp [std.tuple_element]
  | cons T Ts ih =>
    cases s with
    | zero => simp [std.tuple_element]
    | succ s => simp [std.tuple_element, ih]

theorem getElem?_isSome_iff {β : Type} (l : List β) (i : Nat) :
    (l[i]?).isSome = true ↔ i < l.length := by
  by_cases h : i < l.length
  · simp [List.getElem?_eq_getElem h, h]
  · simp [List.getElem?_eq_none (Nat.le_of_not_lt h), h]

/-- C16: for the element types `Ts` and every index `I`,
`GpuTupleElement<I, GpuTuple<Ts...>>::type` is defined exactly when `I` is below
`sizeof...(Ts)`, and for a tuple `t` and every index `I`, `get<I>(t)` is defined
exactly when `I` is below the arity of `t`; for the other indices both are
rejected. -/
theorem index_space_is_below_arity {τ T : Type} (Ts : List τ) (t : GpuTuple T) (I : Nat) :
    ((GpuTupleElement I Ts).isSome = true ↔ I < GpuTupleSize.value Ts) ∧
    ((get I t).isSome = true ↔ I < GpuTupleSize t) ∧
    (GpuTupleSize.value Ts ≤ I → GpuTupleElement I Ts = none) ∧
    (GpuTupleSize t ≤ I → get I t = none) := by
  refine ⟨?_, ?_, ?_, ?_⟩
  · rw [GpuTupleElement_eq_getElem?, getElem?_isSome_iff]
    rfl
  · rw [get_eq_slots, getElem?_isSome_iff, size_eq_slots]
  · intro h
    rw [GpuTupleElement_eq_getElem?]
    exact List.getElem?_eq_none h
  · exact get_none_of_le t I

/-- Witness of C16: for the element types `(int, long)` the index `2` has no
element type, and `get<2>` of the tuple `(1, 2)` is rejected. -/
theorem index_space_is_below_arity_witness :
    GpuTupleElement 2 [Arith.int, Arith.long] = none ∧
      get 2 (detail.gpu_tuple_impl.ctor copy_conv 0 (1 : Int) [2]) = none :=
  ⟨(index_space_is_below_arity [Arith.int, Arith.long]
      (detail.gpu_tuple_impl.ctor copy_conv 0 (1 : Int) [2]) 2).2.2.1 (by decide),
    (index_space_is_below_arity [Arith.int, Arith.long]
      (detail.gpu_tuple_impl.ctor copy_conv 0 (1 : Int) [2]) 2).2.2.2 (by decide)⟩

/-- C17: for every list of element types `Ts`, `std::tuple_size` is
`GpuTupleSize` and is the number of the element types, and for every index `i`
below that number `std::tuple_element<i>` is `GpuTupleElement<i>` and is the
element type number `i`. -/
theorem destructuring_introspection_agrees {τ : Type} (Ts : List τ) :
    std.tuple_size Ts = GpuTupleSize.value Ts ∧ GpuTupleSize.value Ts = Ts.length ∧
    ∀ i (h : i < Ts.length),
      std.tuple_element i Ts = GpuTupleElement i Ts ∧ GpuTupleElement i Ts = some Ts[i] := by
  refine ⟨rfl, rfl, ?_⟩
  intro i h
  rw [tuple_element_eq_getElem?, GpuTupleElement_eq_getElem?, List.getElem?_eq_getElem h]
  exact ⟨rfl, rfl⟩

/-- Witness of C17: the element types `(int, long, int)`, at the index `1`. -/
theorem destructuring_introspection_agrees_witness :
    std.tuple_size [Arith.int, Arith.long, Arith.int] = 3 ∧
      GpuTupleSize.value [Arith.int, Arith.long, Arith.int] = 3 ∧
      std.tuple_element 1 [Arith.int, Arith.long, Arith.int] = some Arith.long ∧
      GpuTupleElement 1 [Arith.int, Arith.long, Arith.int] = some Arith.long := by
  obtain ⟨h1, h2, h3⟩ := destructuring_introspection_agrees [Arith.int, Arith.long, Arith.int]
  obtain ⟨h4, h5⟩ := h3 1 (by decide)
  exact ⟨by rw [h1, h2]; rfl, by rw [h2]; rfl, by rw [h4, h5]; rfl, by rw [h5]; rfl⟩

/-! ## Construction from a tuple -/

/-- Counterexample to C18 as stated: `int` converts to `long`, and the
construction of a `GpuTuple<long,long>` from the `GpuTuple<int,int>` that holds
`(7, 8)` is rejected, whatever conversion the source tuple itself may have. -/
theorem construct_from_other_tuple_rejected :
    ∃ src : GpuTuple ArithValue,
      GpuTuple.ctor copy_conv 2 [⟨Arith.int, 7⟩, ⟨Arith.int, 8⟩] = some src ∧
      (convert_to Arith.long ⟨Arith.int, 7⟩ = ⟨Arith.long, 7⟩ ∧
        convert_to Arith.long ⟨Arith.int, 8⟩ = ⟨Arith.long, 8⟩) ∧
      ∀ convert : Nat → GpuTuple ArithValue → Option ArithValue,
        GpuTuple.ctor_from_tuple [Arith.long, Arith.long] [Arith.int, Arith.int] convert src
          = none :=
  ⟨detail.gpu_tuple_impl.ctor copy_conv 0 ⟨Arith.int, 7⟩ [⟨Arith.int, 8⟩], rfl,
    ⟨by decide, by decide⟩, fun _ => rfl⟩

/-- C18, amended: a `GpuTuple<Ts...>` is constructed from a tuple `src` of type
`GpuTuple<Us...>` when `Us...` is `Ts...`, and is then a copy with the slots of
`src`; for other element types the construction from the tuple is rejected when
`Ts` has not exactly one type, and when it has one and the source tuple does not
convert to it.  Constructed from the values `get<0>(src), ..., get<n-1>(src)`,
the tuple has the arity of `src` and its slot `i` is the conversion `conv i` of
slot `i` of `src`. -/
theorem construct_from_tuple_slots {τ V : Type} [DecidableEq τ] (Ts Us : List τ)
    (convert : Nat → GpuTuple V → Option V) (conv : Nat → V → V) (src : GpuTuple V) :
    (Us = Ts → ∃ r, GpuTuple.ctor_from_tuple Ts Us convert src = some r ∧
      GpuTupleSize r = GpuTupleSize src ∧
      ∀ i, i < GpuTupleSize src → ∃ v, get i src = some v ∧ get i r = some v) ∧
    (Us ≠ Ts → Ts.length ≠ 1 → GpuTuple.ctor_from_tuple Ts Us convert src = none) ∧
    (Us ≠ Ts → convert 0 src = none → GpuTuple.ctor_from_tuple Ts Us convert src = none) ∧
    (∃ args r, expand (fun I => get I src) (make_index_sequence (GpuTupleSize src)) = some args ∧
      GpuTuple.ctor conv (GpuTupleSize src) args = some r ∧
      GpuTupleSize r = GpuTupleSize src ∧
      ∀ i, i < GpuTupleSize src → ∃ v, get i src = some v ∧ get i r = some (conv i v)) := by
  refine ⟨?_, ?_, ?_, ?_⟩
  · intro h
    refine ⟨src, by rw [GpuTuple.ctor_from_tuple, if_pos h], rfl, ?_⟩
    intro i hi
    rw [size_eq_slots] at hi
    exact ⟨(detail.gpu_tuple_impl.slots src)[i],
      by rw [get_eq_slots, List.getElem?_eq_getElem hi],
      by rw [get_eq_slots, List.getElem?_eq_getElem hi]⟩
  · intro h hlen
    rw [GpuTuple.ctor_from_tuple, if_neg h, if_neg]
    intro h1
    exact hlen h1.symm
  · intro h hconv
    rw [GpuTuple.ctor_from_tuple, if_neg h]
    split
    · simp [detail.gpu_tuple_impl.ctor_convert, hconv]
    · rfl
  · obtain ⟨r, hr, hsize, hslots⟩ := ctor_some conv (detail.gpu_tuple_impl.slots src)
      (slots_ne_nil src)
    rw [← size_eq_slots] at hr hsize
    refine ⟨detail.gpu_tuple_impl.slots src, r, expand_get_range src, hr, hsize, ?_⟩
    intro i hi
    rw [size_eq_slots] at hi
    refine ⟨(detail.gpu_tuple_impl.slots src)[i],
      by rw [get_eq_slots, List.getElem?_eq_getElem hi], ?_⟩
    rw [hslots i, List.getElem?_eq_getElem hi]
    rfl

/-- Witness of C18, amended: a `GpuTuple<long,long>` constructed from the slots
`get<0>(src), get<1>(src)` of the `GpuTuple<int,int>` that holds `(7, 8)` holds
`(7L, 8L)`, and constructed from that tuple itself it is rejected. -/
theorem construct_from_tuple_slots_witness :
    GpuTuple.ctor_from_tuple [Arith.long, Arith.long] [Arith.int, Arith.int] (fun _ _ => none)
        (detail.gpu_tuple_impl.ctor copy_conv 0 (⟨Arith.int, 7⟩ : ArithValue) [⟨Arith.int, 8⟩])
      = none ∧
    ∃ args r,
      expand (fun I => get I
          (detail.gpu_tuple_impl.ctor copy_conv 0 (⟨Arith.int, 7⟩ : ArithValue) [⟨Arith.int, 8⟩]))
        (make_index_sequence 2) = some args ∧
      GpuTuple.ctor (fun _ => convert_to Arith.long) 2 args = some r ∧
      get 0 r = some ⟨Arith.long, 7⟩ ∧ get 1 r = some ⟨Arith.long, 8⟩ := by
  obtain ⟨_, hrej, _, args, r, hargs, hr, _, hslots⟩ := construct_from_tuple_slots
    [Arith.long, Arith.long] [Arith.int, Arith.int] (fun _ _ => none)
    (fun _ => convert_to Arith.long)
    (detail.gpu_tuple_impl.ctor copy_conv 0 (⟨Arith.int, 7⟩ : ArithValue) [⟨Arith.int, 8⟩])
  refine ⟨hrej (by decide) (by decide), args, r, hargs, hr, ?_, ?_⟩
  · obtain ⟨v, hv, hrv⟩ := hslots 0 (by decide)
    have : v = ⟨Arith.int, 7⟩ := (Option.some.inj hv).symm
    rw [hrv, this]
    decide
  · obtain ⟨v, hv, hrv⟩ := hslots 1 (by decide)
    have : v = ⟨Arith.int, 8⟩ := (Option.some.inj hv).symm
    rw [hrv, this]
    decide

/-! ## The order of the slot assignments -/

theorem tuple_copy_from {S : Type} (assign : Nat → S → Option S) (N : Nat) (h1 : 1 ≤ N)
    (hN : N < size_t_range) (d : Nat) :
    ∀ (I : Nat) (a : S), I + d + 1 = N →
      detail.tuple_copy assign I N a
        = List.foldlM (fun s J => assign J s) a (List.range' I (d + 1)) := by
  induction d with
  | zero =>
    intro I a hI
    rw [tuple_copy_unfold _ _ _ _ h1 hN, if_neg (by omega), if_pos (by omega)]
    simp [List.range'_succ]
  | succ d ih =>
    intro I a hI
    rw [tuple_copy_unfold _ _ _ _ h1 hN, if_pos (by omega), List.range'_succ,
      List.foldlM_cons]
    have hfun : (fun a' => detail.tuple_copy assign (I + 1) N a')
        = fun a' => List.foldlM (fun s J => assign J s) a' (List.range' (I + 1) (d + 1)) := by
      funext a'
      exact ih (I + 1) a' (by omega)
    rw [hfun]
    rfl

theorem foldlM_log (l : List Nat) (init : List Nat) :
    List.foldlM (fun (log : List Nat) (I : Nat) => some (log ++ [I])) init l
      = some (init ++ l) := by
  induction l generalizing init with
  | nil => simp
  | cons I Is ih =>
    rw [List.foldlM_cons]
    simp only [Option.bind_eq_bind, Option.some_bind]
    rw [ih]
    simp

/-- C19: for an arity `N` of at least one (a `std::size_t`), `tuple_copy<0,N>`
runs the slot assignment for the indices `0, 1, ..., N-1`, each once and in this
order, stopping at a rejected one; the log of the indices it runs is
`0, 1, ..., N-1`; and `Tie(x, x) = makeTuple(a, b)` leaves `b` at the location
`x` and every other location unchanged. -/
theorem tuple_copy_assigns_in_index_order :
    (∀ (S : Type) (assign : Nat → S → Option S) (N : Nat) (a : S),
      1 ≤ N → N < size_t_range →
      detail.tuple_copy assign 0 N a
        = List.foldlM (fun s I => assign I s) a (List.range N)) ∧
    (∀ N : Nat, 1 ≤ N → N < size_t_range →
      detail.tuple_copy (fun I (log : List Nat) => some (log ++ [I])) 0 N []
        = some (List.range N)) ∧
    (∀ (V : Type) (x : Nat) (a b : V) (m : Memory V),
      ∃ t s m', Tie [x, x] = some t ∧ makeTuple (fun v => v) [a, b] = some s ∧
        GpuTuple.operator_assign_ref copy_conv t s m = some m' ∧
        m' x = b ∧ ∀ l, l ≠ x → m' l = m l) := by
  have hgen : ∀ (S : Type) (assign : Nat → S → Option S) (N : Nat) (a : S),
      1 ≤ N → N < size_t_range →
      detail.tuple_copy assign 0 N a
        = List.foldlM (fun s I => assign I s) a (List.range N) := by
    intro S assign N a h1 hN
    rw [tuple_copy_from assign N h1 hN (N - 1) 0 a (by omega), List.range_eq_range']
    have : N - 1 + 1 = N := by omega
    rw [this]
  refine ⟨hgen, ?_, ?_⟩
  · intro N h1 hN
    rw [hgen _ _ N [] h1 hN, foldlM_log]
    simp
  · intro V x a b m
    refine ⟨detail.gpu_tuple_impl.ctor copy_conv 0 x [x],
      detail.gpu_tuple_impl.ctor (fun _ => fun v : V => v) 0 a [b],
      (m.write x a).write x b, rfl, rfl, ?_, ?_, ?_⟩
    · have h2 : (2 : Nat) < size_t_range := by decide
      have hsize : GpuTupleSize (detail.gpu_tuple_impl.ctor copy_conv 0 x [x]) = 2 := rfl
      have hsize' : GpuTupleSize (detail.gpu_tuple_impl.ctor (fun _ => fun v : V => v) 0 a [b])
          = 2 := rfl
      rw [GpuTuple.operator_assign_ref, if_pos (by rw [hsize, hsize']), hsize,
        hgen _ _ 2 m (by decide) h2]
      rfl
    · simp [Memory.write]
    · intro l hl
      simp [Memory.write, hl]

/-- Witness of C19: the log of `tuple_copy<0,3>` is `0, 1, 2`, and
`Tie(x, x) = makeTuple(10, 20)` for `x` at the location `4` leaves `x = 20`. -/
theorem tuple_copy_assigns_in_index_order_witness :
    detail.tuple_copy (fun I (log : List Nat) => some (log ++ [I])) 0 3 [] = some [0, 1, 2] ∧
    ∃ t s m', Tie [4, 4] = some t ∧ makeTuple (fun v => v) [(10 : Int), 20] = some s ∧
      GpuTuple.operator_assign_ref copy_conv t s (fun _ => (0 : Int)) = some m' ∧
      m' 4 = 20 ∧ ∀ l, l ≠ 4 → m' l = (0 : Int) :=
  ⟨tuple_copy_assigns_in_index_order.2.1 3 (by decide) (by decide),
    tuple_copy_assigns_in_index_order.2.2 Int 4 10 20 (fun _ => (0 : Int))⟩

/-! ## Slots do not overlap -/

/-- C20: for a tuple `t` of object element types, an index `i` below its arity
and a value `v`, the assignment `get<i>(t) = v` gives a tuple of the same arity
in which `get<i>` is `v` and `get<j>` is what it was for every other index `j`. -/
theorem slots_do_not_overlap {T : Type} (t : GpuTuple T) (i : Nat) (v : T)
    (hi : i < GpuTupleSize t) :
    ∃ t', detail.gpu_tuple_impl.assign_base i v t = some t' ∧
      GpuTupleSize t' = GpuTupleSize t ∧ get i t' = some v ∧
      ∀ j, j ≠ i → get j t' = get j t := by
  obtain ⟨t', h1, h2⟩ := assign_base_slots t i v hi
  rw [Nat.zero_add] at h1
  have hil : i < (detail.gpu_tuple_impl.slots t).length := by
    rw [← size_eq_slots]; exact hi
  refine ⟨t', h1, ?_, ?_, ?_⟩
  · rw [size_eq_slots, h2, List.length_set, ← size_eq_slots]
  · rw [get_eq_slots, h2, List.getElem?_set, if_pos rfl, if_pos hil]
  · intro j hj
    rw [get_eq_slots, h2, List.getElem?_set, if_neg (fun h => hj h.symm), get_eq_slots]

/-- Witness of C20: `get<1>(t) = 9` on the tuple `(5, 5, 5)`, whose slots hold
equal values of one type. -/
theorem slots_do_not_overlap_witness :
    ∃ t', detail.gpu_tuple_impl.assign_base 1 9
        (detail.gpu_tuple_impl.ctor copy_conv 0 (5 : Int) [5, 5]) = some t' ∧
      GpuTupleSize t' = 3 ∧ get 1 t' = some 9 ∧ get 0 t' = some 5 ∧ get 2 t' = some 5 := by
  obtain ⟨t', h1, h2, h3, h4⟩ := slots_do_not_overlap
    (detail.gpu_tuple_impl.ctor copy_conv 0 (5 : Int) [5, 5]) 1 9 (by decide)
  exact ⟨t', h1, h2, h3, by rw [h4 0 (by decide)]; rfl, by rw [h4 2 (by decide)]; rfl⟩

/-! ## The slot type rule of `makeTuple` -/

theorem tuple_decay_t_named {τ : Type} (T : CppType τ) (name : τ)
    (h : T.object = ObjectType.named name) :
    detail.tuple_decay_t T = ⟨ObjectType.named name, false, false, RefKind.none⟩ := by
  simp only [detail.tuple_decay_t, std.decay_t, h, detail.unwrap]

theorem tuple_decay_t_wrapper {τ : Type} (T : CppType τ) (c v : Bool) (U : ObjectType τ)
    (h : T.object = ObjectType.reference_wrapper c v U) :
    detail.tuple_decay_t T = ⟨U, c, v, RefKind.lvalue⟩ := by
  simp only [detail.tuple_decay_t, std.decay_t, h, detail.unwrap]

/-- C21: for every argument type `T`, `std::decay_t<T>` is the object type of `T`
without qualifier and reference, `tuple_decay_t<T>` is `U&` when that is
`std::reference_wrapper<U>` and is `std::decay_t<T>` otherwise; and in the tuple
`makeTuple(args...)` the slot of an argument that is not a
`std::reference_wrapper` reads, in every later storage, the value the argument
had at the call, while the slot of a `std::reference_wrapper` reads the current
value of the wrapped object. -/
theorem makeTuple_slot_type_rule {τ V : Type} :
    (∀ T : CppType τ,
      std.decay_t T = ⟨T.object, false, false, RefKind.none⟩ ∧
      (∀ c v U, (std.decay_t T).object = ObjectType.reference_wrapper c v U →
        detail.tuple_decay_t T = ⟨U, c, v, RefKind.lvalue⟩) ∧
      ((∀ c v U, (std.decay_t T).object ≠ ObjectType.reference_wrapper c v U) →
        detail.tuple_decay_t T = std.decay_t T)) ∧
    (∀ (m : Memory V) (args : List (Argument τ)), args ≠ [] →
      ∃ tup, makeTuple (tuple_decay m) args = some tup ∧ GpuTupleSize tup = args.length ∧
        ∀ i (h : i < args.length),
          ((∀ c v U, args[i].type.object ≠ ObjectType.reference_wrapper c v U) →
            ∀ m' : Memory V, (get i tup).map (Slot.read m') = some (m args[i].storage)) ∧
          ((∃ c v U, args[i].type.object = ObjectType.reference_wrapper c v U) →
            ∀ m' : Memory V, (get i tup).map (Slot.read m') = some (m' args[i].storage))) := by
  constructor
  · intro T
    refine ⟨rfl, ?_, ?_⟩
    · intro c v U h
      exact tuple_decay_t_wrapper T c v U h
    · intro h
      cases hobj : T.object with
      | named name => rw [tuple_decay_t_named T name hobj, std.decay_t, hobj]
      | reference_wrapper c v U => exact absurd hobj (h c v U)
  · intro m args hne
    obtain ⟨tup, htup, hsize, hslots⟩ := ctor_some (fun _ => tuple_decay (V := V) m) args hne
    refine ⟨tup, htup, hsize, ?_⟩
    intro i h
    have hget : get i tup = some (tuple_decay m args[i]) := by
      rw [hslots i, List.getElem?_eq_getElem h]
      rfl
    constructor
    · intro hnot m'
      cases hobj : args[i].type.object with
      | named name =>
        rw [hget]
        simp only [tuple_decay, tuple_decay_t_named _ name hobj, Option.map_some', Slot.read]
      | reference_wrapper c v U => exact absurd hobj (hnot c v U)
    · rintro ⟨c, v, U, hobj⟩ m'
      rw [hget]
      simp only [tuple_decay, tuple_decay_t_wrapper _ c v U hobj, Option.map_some', Slot.read]

/-- Witness of C21: `makeTuple(x, std::ref(y))` for an `int x` at the location `0`
and an `int y` at the location `1`: after `x` and `y` are assigned `7`, slot `0`
still reads the `3` that `x` held and slot `1` reads `7`. -/
theorem makeTuple_slot_type_rule_witness :
    ∃ tup, makeTuple (tuple_decay (fun _ => (3 : Int)))
        [⟨⟨ObjectType.named Arith.int, false, false, RefKind.lvalue⟩, 0⟩,
          ⟨⟨ObjectType.reference_wrapper false false (ObjectType.named Arith.int),
            false, false, RefKind.none⟩, 1⟩] = some tup ∧
      (get 0 tup).map (Slot.read (fun _ => (7 : Int))) = some 3 ∧
      (get 1 tup).map (Slot.read (fun _ => (7 : Int))) = some 7 := by
  obtain ⟨tup, htup, _, hslots⟩ := (makeTuple_slot_type_rule (τ := Arith) (V := Int)).2
    (fun _ => (3 : Int))
    [⟨⟨ObjectType.named Arith.int, false, false, RefKind.lvalue⟩, 0⟩,
      ⟨⟨ObjectType.reference_wrapper false false (ObjectType.named Arith.int),
        false, false, RefKind.none⟩, 1⟩] (by simp)
  refine ⟨tup, htup, ?_, ?_⟩
  · exact (hslots 0 (by decide)).1 (by intro c v U h; cases h) (fun _ => (7 : Int))
  · exact (hslots 1 (by decide)).2 ⟨false, false, ObjectType.named Arith.int, rfl⟩
      (fun _ => (7 : Int))

/-! ## Default construction -/

theorem default_ctor_of_all {τ T : Type} (dc : τ → Bool) (vi : τ → T) (Tail : List τ) :
    ∀ (I : Nat) (Head : τ), (∀ U ∈ Head :: Tail, dc U = true) →
      detail.gpu_tuple_impl.default_ctor dc vi I Head Tail
        = some (detail.gpu_tuple_impl.ctor (fun _ => vi) I Head Tail) := by
  induction Tail with
  | nil =>
    intro I Head h
    have hH := h Head (List.mem_cons_self _ _)
    simp [detail.gpu_tuple_impl.default_ctor, detail.gpu_tuple_element.default_ctor, hH,
      detail.gpu_tuple_impl.ctor]
  | cons U Tail ih =>
    intro I Head h
    have hH := h Head (List.mem_cons_self _ _)
    have hT := ih (I + 1) U (fun X hX => h X (List.mem_cons_of_mem _ hX))
    simp [detail.gpu_tuple_impl.default_ctor, detail.gpu_tuple_element.default_ctor, hH, hT,
      detail.gpu_tuple_impl.ctor]

theorem default_ctor_of_not {τ T : Type} (dc : τ → Bool) (vi : τ → T) (Tail : List τ) :
    ∀ (I : Nat) (Head : τ), (∃ U ∈ Head :: Tail, dc U = false) →
      detail.gpu_tuple_impl.default_ctor (T := T) dc vi I Head Tail = none := by
  induction Tail with
  | nil =>
    intro I Head h
    obtain ⟨U, hU, hdc⟩ := h
    rw [List.mem_singleton] at hU
    rw [hU] at hdc
    simp [detail.gpu_tuple_impl.default_ctor, hdc]
  | cons X Tail ih =>
    intro I Head h
    obtain ⟨U, hU, hdc⟩ := h
    by_cases hH : dc Head = true
    · have hU' : U ∈ X :: Tail := by
        rcases List.mem_cons.mp hU with h1 | h1
        · rw [h1, hH] at hdc
          cases hdc
        · exact h1
      have hT := ih (I + 1) X ⟨U, hU', hdc⟩
      simp [detail.gpu_tuple_impl.default_ctor, hH, hT]
    · simp [detail.gpu_tuple_impl.default_ctor, hH]

theorem slots_ctor_map {A T : Type} (f : A → T) (I : Nat) (a_head : A) (a_tail : List A) :
    (detail.gpu_tuple_impl.ctor (fun _ => f) I a_head a_tail).slots
      = (a_head :: a_tail).map f := by
  induction a_tail generalizing I a_head with
  | nil => rfl
  | cons a as ih =>
    simp only [detail.gpu_tuple_impl.ctor, detail.gpu_tuple_impl.slots, ih, List.map_cons]

/-- C22: for a non-empty list `Ts` of element types, the default construction of
`GpuTuple<Ts...>` has a result exactly when every element type is
default-constructible. -/
theorem default_construction_iff {τ T : Type} (is_default_constructible : τ → Bool)
    (value_init : τ → T) (Ts : List τ) (hne : Ts ≠ []) :
    ((GpuTuple.default_ctor is_default_constructible value_init Ts).isSome = true ↔
      ∀ U ∈ Ts, is_default_constructible U = true) ∧
    ((∃ U ∈ Ts, is_default_constructible U = false) →
      GpuTuple.default_ctor is_default_constructible value_init Ts = none) := by
  match Ts, hne with
  | Head :: Tail, _ =>
    have hnone : (∃ U ∈ Head :: Tail, is_default_constructible U = false) →
        GpuTuple.default_ctor is_default_constructible value_init (Head :: Tail) = none :=
      fun h => default_ctor_of_not is_default_constructible value_init Tail 0 Head h
    refine ⟨⟨fun hs => ?_, fun hall => ?_⟩, hnone⟩
    · intro U hU
      by_cases hdc : is_default_constructible U = true
      · exact hdc
      · rw [hnone ⟨U, hU, by simpa using hdc⟩] at hs
        simp at hs
    · simp only [GpuTuple.default_ctor]
      rw [default_ctor_of_all is_default_constructible value_init Tail 0 Head hall]
      rfl

/-- Witness of C22: with `int` default-constructible and `long` not, the default
construction of a tuple of `(int, long)` is rejected and the one of a tuple of
`(int, int)` has a result. -/
theorem default_construction_iff_witness :
    GpuTuple.default_ctor (fun U => decide (U = Arith.int)) value_init_arith
        [Arith.int, Arith.long] = none ∧
    (GpuTuple.default_ctor (fun U => decide (U = Arith.int)) value_init_arith
        [Arith.int, Arith.int]).isSome = true :=
  ⟨(default_construction_iff (fun U => decide (U = Arith.int)) value_init_arith
      [Arith.int, Arith.long] (by simp)).2 ⟨Arith.long, by simp, by decide⟩,
    (default_construction_iff (fun U => decide (U = Arith.int)) value_init_arith
      [Arith.int, Arith.int] (by simp)).1.2 (by decide)⟩

/-- C26: for a non-empty list `Ts` of default-constructible element types whose
value-initialisation is the conversion of `0` (the arithmetic types), the
default-constructed tuple exists, is the tuple `MakeZeroTuple` returns, and its
slot `i` is the value-initialisation of the type of the slot; for the
arithmetic types `int` and `long` the slot is the value of its type that
represents the integer `0`. -/
theorem default_constructed_is_zero :
    (∀ (τ T : Type) (is_default_constructible : τ → Bool) (value_init : τ → T)
      (static_cast : τ → Int → T) (Ts : List τ) (t : GpuTuple T),
      Ts ≠ [] → (∀ U ∈ Ts, is_default_constructible U = true) →
      (∀ U ∈ Ts, value_init U = static_cast U 0) →
      ∃ d, GpuTuple.default_ctor is_default_constructible value_init Ts = some d ∧
        MakeZeroTuple static_cast Ts t = some d ∧
        ∀ i (h : i < Ts.length), get i d = some (value_init Ts[i])) ∧
    (∀ (Ts : List Arith) (t : GpuTuple ArithValue), Ts ≠ [] →
      ∃ d, GpuTuple.default_ctor (fun _ => true) value_init_arith Ts = some d ∧
        MakeZeroTuple static_cast_int Ts t = some d ∧
        ∀ i (h : i < Ts.length), get i d = some ⟨Ts[i], 0⟩) := by
  have hgen : ∀ (τ T : Type) (is_default_constructible : τ → Bool) (value_init : τ → T)
      (static_cast : τ → Int → T) (Ts : List τ) (t : GpuTuple T),
      Ts ≠ [] → (∀ U ∈ Ts, is_default_constructible U = true) →
      (∀ U ∈ Ts, value_init U = static_cast U 0) →
      ∃ d, GpuTuple.default_ctor is_default_constructible value_init Ts = some d ∧
        MakeZeroTuple static_cast Ts t = some d ∧
        ∀ i (h : i < Ts.length), get i d = some (value_init Ts[i]) := by
    intro τ T dc vi sc Ts t hne hall hzero
    match Ts, hne with
    | Head :: Tail, _ =>
      have hd := default_ctor_of_all dc vi Tail 0 Head hall
      have hslots := slots_ctor_map vi 0 Head Tail
      refine ⟨detail.gpu_tuple_impl.ctor (fun _ => vi) 0 Head Tail, hd, ?_, ?_⟩
      · have hmap : (Head :: Tail).map (fun U => sc U 0) = (Head :: Tail).map vi := by
          apply List.map_congr_left
          intro U hU
          exact (hzero U hU).symm
        have hz : MakeZeroTuple sc (Head :: Tail) t
            = some (detail.gpu_tuple_impl.ctor copy_conv 0 (sc Head 0)
                (Tail.map (fun U => sc U 0))) := by
          simp [MakeZeroTuple, GpuTuple.ctor]
        rw [hz]
        congr 1
        apply slots_injective
        rw [detail.slots_ctor_copy, hslots, ← hmap]
        rfl
      · intro i h
        rw [get_eq_slots, hslots, List.getElem?_map, List.getElem?_eq_getElem h]
        rfl
  refine ⟨hgen, ?_⟩
  intro Ts t hne
  obtain ⟨d, hd, hz, hslots⟩ := hgen Arith ArithValue (fun _ => true) value_init_arith
    static_cast_int Ts t hne (fun _ _ => rfl) (fun U _ => by cases U <;> rfl)
  exact ⟨d, hd, hz, hslots⟩

/-- Witness of C26: the default-constructed tuple of `(int, long, int)` is the
tuple that `MakeZeroTuple` returns and holds `(0, 0L, 0)`. -/
theorem default_constructed_is_zero_witness :
    ∃ d, GpuTuple.default_ctor (fun _ => true) value_init_arith
        [Arith.int, Arith.long, Arith.int] = some d ∧
      MakeZeroTuple static_cast_int [Arith.int, Arith.long, Arith.int]
        (detail.gpu_tuple_impl.ctor copy_conv 0 (⟨Arith.int, 5⟩ : ArithValue)
          [⟨Arith.long, 6⟩, ⟨Arith.int, 7⟩]) = some d ∧
      get 0 d = some ⟨Arith.int, 0⟩ ∧ get 1 d = some ⟨Arith.long, 0⟩ ∧
      get 2 d = some ⟨Arith.int, 0⟩ := by
  obtain ⟨d, hd, hz, hslots⟩ := default_constructed_is_zero.2 [Arith.int, Arith.long, Arith.int]
    (detail.gpu_tuple_impl.ctor copy_conv 0 (⟨Arith.int, 5⟩ : ArithValue)
      [⟨Arith.long, 6⟩, ⟨Arith.int, 7⟩]) (by simp)
  exact ⟨d, hd, hz, hslots 0 (by decide), hslots 1 (by decide), hslots 2 (by decide)⟩

/-! ## ForwardAsTuple -/

theorem ForwardAsTuple_slots (args : List Forwarded) (h : args ≠ []) :
    ∃ t, ForwardAsTuple args = some t ∧ GpuTupleSize t = args.length ∧
      ∀ i, get i t = args[i]? := by
  obtain ⟨t, ht, hsize, hslots⟩ := ctor_some (copy_conv (T := Forwarded)) args h
  refine ⟨t, ht, hsize, ?_⟩
  intro i
  rw [hslots i]
  cases args[i]? <;> rfl

/-- C23, at the failing input: `ForwardAsTuple` of two rvalue arguments at the
locations `0` and `1` is a tuple of two slots that refer to these locations, in
order, and `Apply(f, ForwardAsTuple(...))` of it is rejected for every callable
`f`, because `get<0>` of the rvalue tuple would return an rvalue reference bound
to an lvalue; with two lvalue arguments `Apply` is `f` of the two arguments. -/
theorem Apply_ForwardAsTuple_rvalue_rejected :
    (∃ t, ForwardAsTuple [⟨ValueCategory.rvalue, 0⟩, ⟨ValueCategory.rvalue, 1⟩] = some t ∧
      GpuTupleSize t = 2 ∧ get 0 t = some ⟨ValueCategory.rvalue, 0⟩ ∧
      get 1 t = some ⟨ValueCategory.rvalue, 1⟩ ∧ get_rvalue 0 t = none ∧
      ∀ (R : Type) (f : List Forwarded → Option R), Apply_rvalue f t = none) ∧
    (∃ t, ForwardAsTuple [⟨ValueCategory.lvalue, 0⟩, ⟨ValueCategory.lvalue, 1⟩] = some t ∧
      ∀ (R : Type) (f : List Forwarded → Option R),
        Apply_rvalue f t = f [⟨ValueCategory.lvalue, 0⟩, ⟨ValueCategory.lvalue, 1⟩]) :=
  ⟨⟨detail.gpu_tuple_impl.ctor copy_conv 0 ⟨ValueCategory.rvalue, 0⟩ [⟨ValueCategory.rvalue, 1⟩],
      rfl, rfl, rfl, rfl, rfl, fun _ _ => rfl⟩,
    ⟨detail.gpu_tuple_impl.ctor copy_conv 0 ⟨ValueCategory.lvalue, 0⟩ [⟨ValueCategory.lvalue, 1⟩],
      rfl, fun _ _ => rfl⟩⟩

/-! ## The composition of the slots and the depth of the recursions -/

theorem element_bases_eq {τ : Type} (Tail : List τ) :
    ∀ (I : Nat) (Head : τ), detail.gpu_tuple_impl.element_bases I Head Tail
      = (List.range' I (Head :: Tail).length).zip (Head :: Tail) := by
  induction Tail with
  | nil =>
    intro I Head
    simp [detail.gpu_tuple_impl.element_bases, List.range'_succ]
  | cons U Tail ih =>
    intro I Head
    rw [detail.gpu_tuple_impl.element_bases, ih (I + 1) U]
    simp [List.range'_succ]

theorem unfolding_steps_eq {τ : Type} (Tail : List τ) :
    ∀ Head : τ, detail.gpu_tuple_impl.unfolding_steps Head Tail = Tail.length := by
  induction Tail with
  | nil => intro Head; rfl
  | cons U Tail ih =>
    intro Head
    rw [detail.gpu_tuple_impl.unfolding_steps, ih U, List.length_cons]

theorem GpuTupleElement_steps_eq {τ : Type} (Ts : List τ) :
    ∀ I : Nat, GpuTupleElement.steps I Ts = if I < Ts.length then some I else none := by
  induction Ts with
  | nil => intro I; cases I <;> simp [GpuTupleElement.steps]
  | cons Head Tail ih =>
    intro I
    cases I with
    | zero => simp [GpuTupleElement.steps]
    | succ I =>
      rw [GpuTupleElement.steps, ih I]
      by_cases h : I < Tail.length
      · simp [h]
      · simp [h]

/-- C24: for the element types `Head, Tail...`, the bases `gpu_tuple_element` of
`gpu_tuple_impl<0,Head,Tail...>` are `gpu_tuple_element<i,T_i>` for
`i = 0, 1, ..., n-1` in this order, so their indices are `0, 1, ..., n-1`, each
once; and for every `i` below `n` the base with the index `i` is the only one
with this index and its type is `GpuTupleElement<i,...>::type`. -/
theorem composition_invariant {τ : Type} (Head : τ) (Tail : List τ) :
    detail.gpu_tuple_impl.element_bases 0 Head Tail
      = (List.range (Head :: Tail).length).zip (Head :: Tail) ∧
    (detail.gpu_tuple_impl.element_bases 0 Head Tail).map Prod.fst
      = List.range (Head :: Tail).length ∧
    ∀ i (h : i < (Head :: Tail).length),
      GpuTupleElement i (Head :: Tail) = some (Head :: Tail)[i] ∧
      (i, (Head :: Tail)[i]) ∈ detail.gpu_tuple_impl.element_bases 0 Head Tail ∧
      ∀ b ∈ detail.gpu_tuple_impl.element_bases 0 Head Tail, b.1 = i →
        b = (i, (Head :: Tail)[i]) := by
  have hb := element_bases_eq Tail 0 Head
  rw [← List.range_eq_range'] at hb
  have hget : ∀ k (b : Nat × τ),
      (detail.gpu_tuple_impl.element_bases 0 Head Tail)[k]? = some b →
      ∃ hk : k < (Head :: Tail).length, b = (k, (Head :: Tail)[k]) := by
    intro k b hkb
    rw [hb, List.getElem?_eq_some] at hkb
    obtain ⟨hk, hkb⟩ := hkb
    rw [List.length_zip, List.length_range, Nat.min_self] at hk
    refine ⟨hk, ?_⟩
    rw [← hkb, List.getElem_zip, List.getElem_range]
  refine ⟨hb, ?_, ?_⟩
  · rw [hb, List.map_fst_zip]
    rw [List.length_range]
  · intro i h
    refine ⟨?_, ?_, ?_⟩
    · rw [GpuTupleElement_eq_getElem?, List.getElem?_eq_getElem h]
    · rw [hb, List.mem_iff_getElem]
      refine ⟨i, by rw [List.length_zip, List.length_range, Nat.min_self]; exact h, ?_⟩
      rw [List.getElem_zip, List.getElem_range]
    · intro b hb' hbi
      obtain ⟨k, hk⟩ := List.mem_iff_getElem?.mp hb'
      obtain ⟨_, hkb⟩ := hget k b hk
      rw [hkb] at hbi
      simp only at hbi
      rw [hkb]
      subst hbi
      rfl

/-- Witness of C24: the element types `(int, long, int)`, at the index `1`. -/
theorem composition_invariant_witness :
    detail.gpu_tuple_impl.element_bases 0 Arith.int [Arith.long, Arith.int]
      = [(0, Arith.int), (1, Arith.long), (2, Arith.int)] ∧
    GpuTupleElement 1 [Arith.int, Arith.long, Arith.int] = some Arith.long ∧
    (1, Arith.long) ∈ detail.gpu_tuple_impl.element_bases 0 Arith.int [Arith.long, Arith.int] := by
  obtain ⟨h1, _, h3⟩ := composition_invariant Arith.int [Arith.long, Arith.int]
  obtain ⟨h4, h5, _⟩ := h3 1 (by decide)
  exact ⟨by rw [h1]; rfl, h4, h5⟩

/-- C25: for the element types `Head, Tail...`, `n` in number, the
specialisation of `gpu_tuple_impl<0,...>` for one type is reached after `n-1`
instantiations for a base `gpu_tuple_impl<I+1,Tail...>`; for every `i` below `n`,
`GpuTupleElement<i,...>` reaches the specialisation for the index `0` after `i`
steps; and for no element type the recursion of `GpuTupleElement` reaches the
undefined primary template and no tuple is constructed. -/
theorem recursions_terminate {τ T : Type} (Head : τ) (Tail : List τ) :
    detail.gpu_tuple_impl.unfolding_steps Head Tail = (Head :: Tail).length - 1 ∧
    (∀ i, i < (Head :: Tail).length → GpuTupleElement.steps i (Head :: Tail) = some i) ∧
    (∀ i, GpuTupleElement.steps i ([] : List τ) = none) ∧
    (∀ (conv : Nat → T → T) (n : Nat), GpuTuple.ctor conv n ([] : List T) = none) ∧
    (∀ (is_default_constructible : τ → Bool) (value_init : τ → T),
      GpuTuple.default_ctor is_default_constructible value_init [] = none) := by
  refine ⟨?_, ?_, ?_, fun _ _ => rfl, fun _ _ => rfl⟩
  · rw [unfolding_steps_eq]
    simp
  · intro i hi
    rw [GpuTupleElement_steps_eq, if_pos hi]
  · intro i
    rw [GpuTupleElement_steps_eq]
    simp

/-- Witness of C25: the element types `(int, long, int)`: two instantiations for
a base, and two steps for the index `2`. -/
theorem recursions_terminate_witness :
    detail.gpu_tuple_impl.unfolding_steps Arith.int [Arith.long, Arith.int] = 2 ∧
    GpuTupleElement.steps 2 [Arith.int, Arith.long, Arith.int] = some 2 :=
  ⟨(recursions_terminate (T := Int) Arith.int [Arith.long, Arith.int]).1,
    (recursions_terminate (T := Int) Arith.int [Arith.long, Arith.int]).2.1 2 (by decide)⟩

/-! ## TupleSplit after TupleCat, and the associativity of TupleCat -/

/-- C27: for two tuples `a` and `b` of object element types whose arities `n1`
and `n2` sum to a `std::size_t`, `TupleCat(a, b)` returns a tuple `r`,
`TupleSplit<n1,n2>(r)` returns a tuple of two slots, the first holds `a` and the
second holds `b`, so their slots are those of `a` and of `b`. -/
theorem TupleCat_TupleSplit_roundtrip {T : Type} (a b : GpuTuple T)
    (hN : GpuTupleSize a + GpuTupleSize b < size_t_range) :
    ∃ r s, TupleCat [a, b] = some r ∧
      TupleSplit (fun v => v) [GpuTupleSize a, GpuTupleSize b] r = some s ∧
      GpuTupleSize s = 2 ∧ get 0 s = some a ∧ get 1 s = some b ∧
      (∀ a' b', get 0 s = some a' → get 1 s = some b' →
        (∀ i, get i a' = get i a) ∧ (∀ i, get i b' = get i b)) := by
  obtain ⟨r, hr, hrs⟩ := TupleCat_2_slots a b
  have hsize : GpuTupleSize r = GpuTupleSize a + GpuTupleSize b := by
    rw [size_eq_slots, hrs, List.length_append, ← size_eq_slots, ← size_eq_slots]
  have hpos : ∀ n ∈ [GpuTupleSize a, GpuTupleSize b], 1 ≤ n := by
    intro n hn
    simp only [List.mem_cons, List.mem_singleton, List.not_mem_nil, or_false] at hn
    rcases hn with h | h
    · rw [h]; exact detail.size_pos a
    · rw [h]; exact detail.size_pos b
  obtain ⟨s, hs, hss⟩ := TupleSplit_slots (fun v : T => v) r
    [GpuTupleSize a, GpuTupleSize b] hpos (by simp [hsize]) (by rw [hsize]; exact hN)
  have hpieces : pieces [GpuTupleSize a, GpuTupleSize b]
      ((detail.gpu_tuple_impl.slots r).map (fun v : T => v))
      = [detail.gpu_tuple_impl.slots a, detail.gpu_tuple_impl.slots b] := by
    rw [List.map_id', hrs]
    simp only [pieces]
    rw [List.take_left' (size_eq_slots a).symm, List.drop_left' (size_eq_slots a).symm,
      List.take_of_length_le (by rw [← size_eq_slots])]
  rw [hpieces] at hss
  have hslots : detail.gpu_tuple_impl.slots s = [a, b] := by
    match hsl : detail.gpu_tuple_impl.slots s, hss with
    | [x, y], hss =>
      simp only [List.map_cons, List.map_nil, List.cons.injEq, and_true] at hss
      rw [slots_injective x a hss.1, slots_injective y b hss.2]
    | [], hss => simp at hss
    | [_], hss => simp at hss
    | _ :: _ :: _ :: _, hss => simp at hss
  have h0 : get 0 s = some a := by rw [get_eq_slots, hslots]; rfl
  have h1 : get 1 s = some b := by rw [get_eq_slots, hslots]; rfl
  refine ⟨r, s, hr, hs, by rw [size_eq_slots, hslots]; rfl, h0, h1, ?_⟩
  intro a' b' ha' hb'
  rw [h0] at ha'
  rw [h1] at hb'
  rw [← Option.some.inj ha', ← Option.some.inj hb']
  exact ⟨fun _ => rfl, fun _ => rfl⟩

/-- Witness of C27: `TupleSplit<2,3>(TupleCat((1,2), (3,4,5)))` holds `(1,2)` and
`(3,4,5)`. -/
theorem TupleCat_TupleSplit_roundtrip_witness :
    ∃ r s, TupleCat [detail.gpu_tuple_impl.ctor copy_conv 0 (1 : Int) [2],
        detail.gpu_tuple_impl.ctor copy_conv 0 (3 : Int) [4, 5]] = some r ∧
      TupleSplit (fun v => v) [2, 3] r = some s ∧
      get 0 s = some (detail.gpu_tuple_impl.ctor copy_conv 0 (1 : Int) [2]) ∧
      get 1 s = some (detail.gpu_tuple_impl.ctor copy_conv 0 (3 : Int) [4, 5]) := by
  obtain ⟨r, s, hr, hs, _, h0, h1, _⟩ := TupleCat_TupleSplit_roundtrip
    (detail.gpu_tuple_impl.ctor copy_conv 0 (1 : Int) [2])
    (detail.gpu_tuple_impl.ctor copy_conv 0 (3 : Int) [4, 5]) (by decide)
  exact ⟨r, s, hr, hs, h0, h1⟩

/-- C28: for three tuples `a`, `b`, `c`, the calls `TupleCat(TupleCat(a,b),c)`,
`TupleCat(a,TupleCat(b,c))` and `TupleCat(a,b,c)` all return the same tuple, so
every slot has the same value in the three, and for three lists of element
types the three result types of `tuple_cat_result` are the same. -/
theorem TupleCat_associative {T τ : Type} (a b c : GpuTuple T) (As Bs Cs : List τ) :
    (∃ ab bc l r f, TupleCat [a, b] = some ab ∧ TupleCat [b, c] = some bc ∧
      TupleCat [ab, c] = some l ∧ TupleCat [a, bc] = some r ∧ TupleCat [a, b, c] = some f ∧
      l = r ∧ l = f ∧ ∀ i, get i l = get i r ∧ get i l = get i f) ∧
    (∃ AB BC R, detail.tuple_cat_result [As, Bs] = some AB ∧
      detail.tuple_cat_result [Bs, Cs] = some BC ∧
      detail.tuple_cat_result [AB, Cs] = some R ∧ detail.tuple_cat_result [As, BC] = some R ∧
      detail.tuple_cat_result [As, Bs, Cs] = some R) := by
  constructor
  · obtain ⟨ab, hab, habs⟩ := TupleCat_2_slots a b
    obtain ⟨bc, hbc, hbcs⟩ := TupleCat_2_slots b c
    obtain ⟨l, hl, hls⟩ := TupleCat_2_slots ab c
    obtain ⟨r, hr, hrs⟩ := TupleCat_2_slots a bc
    obtain ⟨f, hf, hfs⟩ := TupleCat_slots [a, b, c] (by simp)
    have hlr : l = r := by
      apply slots_injective
      rw [hls, hrs, habs, hbcs, List.append_assoc]
    have hlf : l = f := by
      apply slots_injective
      rw [hls, hfs, habs]
      simp
    refine ⟨ab, bc, l, r, f, hab, hbc, hl, hr, hf, hlr, hlf, ?_⟩
    intro i
    rw [← hlr, ← hlf]
    exact ⟨rfl, rfl⟩
  · refine ⟨As ++ Bs, Bs ++ Cs, As ++ Bs ++ Cs, rfl, rfl, rfl, ?_, rfl⟩
    simp [detail.tuple_cat_result, detail.tuple_cat_result_from]

/-- Witness of C28: the tuples `(1)`, `(2,3)` and `(4)`: the three calls return
the same tuple, whose slot `2` holds `3`. -/
theorem TupleCat_associative_witness :
    ∃ ab bc l, TupleCat [detail.gpu_tuple_impl.ctor copy_conv 0 (1 : Int) [],
        detail.gpu_tuple_impl.ctor copy_conv 0 (2 : Int) [3]] = some ab ∧
      TupleCat [detail.gpu_tuple_impl.ctor copy_conv 0 (2 : Int) [3],
        detail.gpu_tuple_impl.ctor copy_conv 0 (4 : Int) []] = some bc ∧
      TupleCat [ab, detail.gpu_tuple_impl.ctor copy_conv 0 (4 : Int) []] = some l ∧
      TupleCat [detail.gpu_tuple_impl.ctor copy_conv 0 (1 : Int) [], bc] = some l ∧
      TupleCat [detail.gpu_tuple_impl.ctor copy_conv 0 (1 : Int) [],
        detail.gpu_tuple_impl.ctor copy_conv 0 (2 : Int) [3],
        detail.gpu_tuple_impl.ctor copy_conv 0 (4 : Int) []] = some l := by
  obtain ⟨⟨ab, bc, l, r, f, hab, hbc, hl, hr, hf, hlr, hlf, _⟩, _⟩ := TupleCat_associative
    (detail.gpu_tuple_impl.ctor copy_conv 0 (1 : Int) [])
    (detail.gpu_tuple_impl.ctor copy_conv 0 (2 : Int) [3])
    (detail.gpu_tuple_impl.ctor copy_conv 0 (4 : Int) [])
    [Arith.int] [Arith.int, Arith.int] [Arith.int]
  exact ⟨ab, bc, l, hab, hbc, hl, by rw [hlr]; exact hr, by rw [hlf]; exact hf⟩

/-! ## The indices that TupleSplit reads -/

theorem sum_take_mono (sizes : List Nat) (j j' : Nat) (h : j ≤ j') :
    (sizes.take j).sum ≤ (sizes.take j').sum := by
  have h1 := sum_take_le (sizes.take j') j
  rw [List.take_take, Nat.min_eq_left h] at h1
  exact h1

theorem sum_take_succ_eq (sizes : List Nat) (j : Nat) (hj : j < sizes.length) :
    (sizes.take (j + 1)).sum = (sizes.take j).sum + sizes[j] := by
  have h1 := List.sum_take_add_sum_drop sizes j
  have h2 := List.sum_take_add_sum_drop sizes (j + 1)
  rw [List.drop_eq_getElem_cons hj, List.sum_cons] at h1
  omega

/-- C29: for sizes that sum to `N` (a `std::size_t`), for every `j` below their
number `SplitIndexList::get<j>()` is the size number `j` and
`get_exclusive_sum<j>()` is the sum of the sizes before it, and for every `i`
below that size the index `get_exclusive_sum<j>() + i`, computed in
`std::size_t`, is that sum plus `i` and is below `N`; and every index below `N`
is `get_exclusive_sum<j>() + i` for exactly one pair of a `j` and an `i` below
the size number `j`. -/
theorem TupleSplit_indices_in_range (sizes : List Nat) (N : Nat) (hsum : sizes.sum = N)
    (hN : N < size_t_range) :
    (∀ j (hj : j < sizes.length),
      detail.SplitIndexList.get sizes j = some sizes[j] ∧
      detail.SplitIndexList.get_exclusive_sum sizes j = some (sizes.take j).sum ∧
      ∀ i, i < sizes[j] →
        size_t_add (sizes.take j).sum i = (sizes.take j).sum + i ∧
        (sizes.take j).sum + i < N) ∧
    (∀ x, x < N → ∃ j i, (∃ hj : j < sizes.length, i < sizes[j]) ∧
      (sizes.take j).sum + i = x ∧
      ∀ j' i', (∃ hj' : j' < sizes.length, i' < sizes[j']) →
        (sizes.take j').sum + i' = x → j' = j ∧ i' = i) := by
  constructor
  · intro j hj
    have hle := sum_take_succ_le sizes j hj
    refine ⟨?_, ?_, ?_⟩
    · rw [detail.SplitIndexList.get, List.getElem?_eq_getElem hj]
    · exact get_exclusive_sum_eq sizes j (by omega) (by omega)
    · intro i hi
      exact ⟨size_t_add_eq _ _ (by omega), by omega⟩
  · intro x hx
    obtain ⟨j, hj, h1, h2⟩ := exists_crossing sizes x (by omega)
    refine ⟨j, x - (sizes.take j).sum, ⟨hj, by omega⟩, by omega, ?_⟩
    rintro j' i' ⟨hj', hi'⟩ hx'
    have hjj : j' = j := by
      rcases Nat.lt_trichotomy j' j with hlt | heq | hgt
      · have hm := sum_take_mono sizes (j' + 1) j (by omega)
        rw [sum_take_succ_eq sizes j' hj'] at hm
        omega
      · exact heq
      · have hm := sum_take_mono sizes (j + 1) j' (by omega)
        rw [sum_take_succ_eq sizes j hj] at hm
        omega
    subst hjj
    exact ⟨rfl, by omega⟩

/-- Witness of C29: the sizes `(2, 3)` for `N = 5`: the second sub-tuple starts at
the index `2`, and the index `4` is read once, as its slot `2`. -/
theorem TupleSplit_indices_in_range_witness :
    detail.SplitIndexList.get [2, 3] 1 = some 3 ∧
    detail.SplitIndexList.get_exclusive_sum [2, 3] 1 = some 2 ∧
    ∃ j i, (∃ hj : j < [2, 3].length, i < [2, 3][j]) ∧ ([2, 3].take j).sum + i = 4 ∧
      ∀ j' i', (∃ hj' : j' < [2, 3].length, i' < [2, 3][j']) →
        ([2, 3].take j').sum + i' = 4 → j' = j ∧ i' = i := by
  obtain ⟨h1, h2⟩ := TupleSplit_indices_in_range [2, 3] 5 (by decide) (by decide)
  obtain ⟨h3, h4, _⟩ := h1 1 (by decide)
  exact ⟨h3, h4, h2 4 (by decide)⟩

end amrex
